import Mathlib

/- A shallow embedding of the in-memory limit order book implemented in
src/orderbook/order_book.cpp, together with proofs about its operations.

Modelling choices, matching the source:
- Prices are C++ doubles used only as ordered map keys and in comparisons;
  they are modelled as integers (a linear order; the source never does
  arithmetic on prices).
- Quantities are C++ uint64_t; they are modelled as naturals with an
  explicit reduction modulo 2^64 at every arithmetic update the source
  performs, and a clamped subtraction where the source guards (lines
  173, 189, 218, 244 of order_book.cpp).
- Each side's std::map of price levels is modelled as a list of levels
  kept in key order by the insertion function (descending for bids_,
  ascending for asks_), exactly as std::map emplace does.
- The std::list iterator stored per order is modelled by a stable node
  tag: every insertion allocates a fresh tag (the address of the list
  node in the source) from a counter in the book state.  The registry
  (order_lookup_ together with iter_holders_, which the source always
  updates in lock step) maps an order id to its side, the price key the
  stored map iterator points at, and that node tag.  Dereferencing a
  dangling iterator is undefined behaviour in the source and cannot
  happen in reachable states; the embedding returns the untouched book
  in those branches. -/

namespace OrderBookSpec

def U64 : Nat := 2 ^ 64

/-- struct Order of order_book.cpp (price modelled as Int, uint64_t as Nat). -/
structure Order where
  order_id : Nat
  is_buy : Bool
  price : Int
  quantity : Nat
  timestamp_ns : Nat
deriving DecidableEq

/-- One element of a price level's std::list<Order>: the order together
with the identity of its list node (the iterator stored in the registry). -/
structure Entry where
  node : Nat
  ord : Order
deriving DecidableEq

/-- struct PriceLevelNode of order_book.cpp. -/
structure PriceLevelNode where
  price : Int
  total_quantity : Nat
  orders : List Entry
deriving DecidableEq

/-- struct PriceLevel of order_book.cpp (snapshot output). -/
structure PriceLevel where
  price : Int
  total_quantity : Nat
deriving DecidableEq

/-- struct LookupValue of order_book.cpp, with the type-erased map
iterator replaced by the price key it points at plus the list node tag. -/
structure LookupValue where
  is_buy : Bool
  price : Int
  node : Nat
deriving DecidableEq

/-- The private state of class OrderBook: the two ladders, the registry
(order_lookup_ and iter_holders_ merged, since the source keeps them in
lock step), and the allocator counter for list node tags. -/
structure OrderBook where
  bids : List PriceLevelNode
  asks : List PriceLevelNode
  order_lookup : List (Nat × LookupValue)
  next_node : Nat
deriving DecidableEq

def emptyBook : OrderBook := ⟨[], [], [], 0⟩

/-- unordered_map lookup: order_lookup_.find(order_id). -/
def lookupGet (m : List (Nat × LookupValue)) (k : Nat) : Option LookupValue :=
  (m.find? (fun kv => kv.fst == k)).map (fun kv => kv.snd)

/-- unordered_map operator[] assignment: replace the unique entry for the
key, or append a fresh one. -/
def lookupSet : List (Nat × LookupValue) → Nat → LookupValue → List (Nat × LookupValue)
  | [], k, v => [(k, v)]
  | kv :: m, k, v => if kv.fst == k then (k, v) :: m else kv :: lookupSet m k v

/-- unordered_map erase by key (keys are unique in an unordered_map). -/
def lookupErase (m : List (Nat × LookupValue)) (k : Nat) : List (Nat × LookupValue) :=
  m.filter (fun kv => kv.fst != k)

/-- std::map find by price key. -/
def findLevel (ls : List PriceLevelNode) (p : Int) : Option PriceLevelNode :=
  ls.find? (fun l => l.price == p)

/-- Mutation of the level a map iterator points at. -/
def updateLevel (p : Int) (f : PriceLevelNode → PriceLevelNode) :
    List PriceLevelNode → List PriceLevelNode
  | [] => []
  | l :: ls => if l.price == p then f l :: ls else l :: updateLevel p f ls

/-- std::map erase of the level a map iterator points at. -/
def removeLevel (p : Int) : List PriceLevelNode → List PriceLevelNode
  | [] => []
  | l :: ls => if l.price == p then ls else l :: removeLevel p ls

/-- The body of OrderBook::add_order on one side (lines 116-155 of
order_book.cpp): find the level for order.price; if absent, create it in
key order (std::map emplace, order given by the comparator encoded in
`before`); otherwise push_back the order and add its quantity to the
aggregate (uint64_t addition, hence mod 2^64).  `nd` is the fresh list
node tag. -/
def ladderAdd (before : Int → Int → Bool) (nd : Nat) (o : Order) :
    List PriceLevelNode → List PriceLevelNode
  | [] => [⟨o.price, o.quantity, [⟨nd, o⟩]⟩]
  | l :: ls =>
    if l.price == o.price then
      ⟨l.price, (l.total_quantity + o.quantity) % U64, l.orders ++ [⟨nd, o⟩]⟩ :: ls
    else if before o.price l.price then
      ⟨o.price, o.quantity, [⟨nd, o⟩]⟩ :: l :: ls
    else
      l :: ladderAdd before nd o ls

/-- std::greater<double> used by bids_. -/
def bidBefore (a b : Int) : Bool := decide (b < a)

/-- The default std::less<double> used by asks_. -/
def askBefore (a b : Int) : Bool := decide (a < b)

/-- OrderBook::add_order (lines 113-156): ignore zero-quantity orders,
otherwise insert into the matching ladder and (over)write the registry
entry for order.order_id.  The source performs no other validation. -/
def add_order (o : Order) (b : OrderBook) : OrderBook :=
  if o.quantity = 0 then b
  else if o.is_buy then
    { b with
      bids := ladderAdd bidBefore b.next_node o b.bids,
      order_lookup := lookupSet b.order_lookup o.order_id ⟨o.is_buy, o.price, b.next_node⟩,
      next_node := b.next_node + 1 }
  else
    { b with
      asks := ladderAdd askBefore b.next_node o b.asks,
      order_lookup := lookupSet b.order_lookup o.order_id ⟨o.is_buy, o.price, b.next_node⟩,
      next_node := b.next_node + 1 }

/-- The guarded aggregate subtraction of lines 173, 189, 218, 244:
if (total >= qty) total -= qty; else total = 0. -/
def clampSub (t q : Nat) : Nat := if q ≤ t then t - q else 0

/-- Unguarded uint64_t subtraction (wraps modulo 2^64), as performed by
line 232/256 for the in-place quantity decrease. -/
def wsub64 (t q : Nat) : Nat := (t + (U64 - q)) % U64

/-- std::list erase through the stored iterator (the node tag). -/
def eraseNode (nd : Nat) (es : List Entry) : List Entry :=
  es.eraseP (fun e => e.node == nd)

/-- Dereference the stored list iterator: the entry carrying the tag. -/
def findNode (nd : Nat) (es : List Entry) : Option Entry :=
  es.find? (fun e => e.node == nd)

/-- The removal block shared verbatim by cancel_order and the
price-change branch of amend_order: subtract the removed quantity with
the clamp, erase the list node, and erase the whole level if its list
became empty. -/
def ladderAfterErase (lvp : Int) (nd : Nat) (qty : Nat) (pl : PriceLevelNode)
    (ls : List PriceLevelNode) : List PriceLevelNode :=
  let es2 := eraseNode nd pl.orders
  if es2.isEmpty then removeLevel lvp ls
  else updateLevel lvp (fun _ => ⟨pl.price, clampSub pl.total_quantity qty, es2⟩) ls

/-- The ladder the registry entry's side selects. -/
def sideOf (b : OrderBook) (buy : Bool) : List PriceLevelNode :=
  if buy then b.bids else b.asks

/-- The whole-book effect of removing a located order (cancel_order
lines 167-197, and lines 217-223 / 243-248 of amend_order): new ladder on
the order's side, registry entry erased. -/
def eraseBook (oid : Nat) (lv : LookupValue) (pl : PriceLevelNode) (e : Entry)
    (b : OrderBook) : OrderBook :=
  let ls2 := ladderAfterErase lv.price lv.node e.ord.quantity pl (sideOf b lv.is_buy)
  let lk2 := lookupErase b.order_lookup oid
  if lv.is_buy then { b with bids := ls2, order_lookup := lk2 }
  else { b with asks := ls2, order_lookup := lk2 }

/-- OrderBook::cancel_order (lines 158-198).  Unknown id: false, no
mutation.  Otherwise remove the order through its stored iterators. -/
def cancel_order (oid : Nat) (b : OrderBook) : Bool × OrderBook :=
  match lookupGet b.order_lookup oid with
  | none => (false, b)
  | some lv =>
    match findLevel (sideOf b lv.is_buy) lv.price with
    | none => (false, b)
    | some pl =>
      match findNode lv.node pl.orders with
      | none => (false, b)
      | some e => (true, eraseBook oid lv pl e b)

/-- In-place mutation of the order's quantity through the stored list
iterator (line 230/254). -/
def setQtyAtNode (nd q : Nat) : List Entry → List Entry
  | [] => []
  | e :: es =>
    if e.node == nd then { e with ord := { e.ord with quantity := q } } :: es
    else e :: setQtyAtNode nd q es

/-- The whole-book effect of the same-price branch of amend_order
(lines 227-233 / 252-257) when the quantity actually changes: quantity
rewritten in place, aggregate adjusted by the signed delta in uint64_t
arithmetic (wrapping addition; unguarded wrapping subtraction). -/
def adjustBook (lv : LookupValue) (pl : PriceLevelNode) (e : Entry) (nq : Nat)
    (b : OrderBook) : OrderBook :=
  let newTotal :=
    if e.ord.quantity < nq then (pl.total_quantity + (nq - e.ord.quantity)) % U64
    else wsub64 pl.total_quantity (e.ord.quantity - nq)
  let ls2 := updateLevel lv.price
    (fun _ => ⟨pl.price, newTotal, setQtyAtNode lv.node nq pl.orders⟩)
    (sideOf b lv.is_buy)
  if lv.is_buy then { b with bids := ls2 } else { b with asks := ls2 }

/-- OrderBook::amend_order (lines 200-260).  Unknown id: false.  If the
new price differs from the level's price: remove the order (clamped
subtraction, level pruned if emptied, registry entry erased) and
re-insert it via add_order with the new price and quantity, the other
fields (side, id, timestamp) copied unchanged.  Same price: no-op if the
quantity is unchanged, else in-place quantity adjustment. -/
def amend_order (oid : Nat) (new_price : Int) (new_quantity : Nat) (b : OrderBook) :
    Bool × OrderBook :=
  match lookupGet b.order_lookup oid with
  | none => (false, b)
  | some lv =>
    match findLevel (sideOf b lv.is_buy) lv.price with
    | none => (false, b)
    | some pl =>
      match findNode lv.node pl.orders with
      | none => (false, b)
      | some e =>
        if new_price ≠ pl.price then
          (true, add_order { e.ord with price := new_price, quantity := new_quantity }
            (eraseBook oid lv pl e b))
        else if new_quantity = e.ord.quantity then (true, b)
        else (true, adjustBook lv pl e new_quantity b)

/-- OrderBook::get_snapshot (lines 262-272): the first `depth` levels of
each ladder, projected to (price, aggregate).  The source method is
const; the embedding is a pure function of the book. -/
def get_snapshot (depth : Nat) (b : OrderBook) : List PriceLevel × List PriceLevel :=
  ((b.bids.take depth).map (fun l => ⟨l.price, l.total_quantity⟩),
   (b.asks.take depth).map (fun l => ⟨l.price, l.total_quantity⟩))

/-- Book states reachable from the default-constructed book through the
public mutating interface.  Quantity arguments are uint64_t values,
hence below 2^64. -/
inductive Reachable : OrderBook → Prop where
  | empty : Reachable emptyBook
  | add (o : Order) (b : OrderBook) (hq : o.quantity < U64) (hb : Reachable b) :
      Reachable (add_order o b)
  | cancel (oid : Nat) (b : OrderBook) (hb : Reachable b) :
      Reachable (cancel_order oid b).snd
  | amend (oid : Nat) (p : Int) (q : Nat) (b : OrderBook) (hq : q < U64)
      (hb : Reachable b) : Reachable (amend_order oid p q b).snd

/-- Sum of the remaining quantities of a level's FIFO members. -/
def sumQ (es : List Entry) : Nat := (es.map (fun e => e.ord.quantity)).sum

/-- The central aggregate invariant: each level's stored aggregate equals
the sum of the remaining quantities of its FIFO queue. -/
def AggInv (b : OrderBook) : Prop :=
  (∀ l ∈ b.bids, l.total_quantity = sumQ l.orders) ∧
  (∀ l ∈ b.asks, l.total_quantity = sumQ l.orders)

/-- No level's true quantity sum has reached 2^64 (the aggregate's
uint64_t counter has not overflowed). -/
def SumsBounded (b : OrderBook) : Prop :=
  (∀ l ∈ b.bids, sumQ l.orders < U64) ∧ (∀ l ∈ b.asks, sumQ l.orders < U64)

/-- Reachability through operation sequences in which every operation
leaves every level's quantity sum below 2^64, i.e. the uint64_t
aggregates never overflow. -/
inductive ReachableNoOv : OrderBook → Prop where
  | empty : ReachableNoOv emptyBook
  | add (o : Order) (b : OrderBook) (hq : o.quantity < U64) (hb : ReachableNoOv b)
      (hs : SumsBounded (add_order o b)) : ReachableNoOv (add_order o b)
  | cancel (oid : Nat) (b : OrderBook) (hb : ReachableNoOv b)
      (hs : SumsBounded (cancel_order oid b).snd) :
      ReachableNoOv (cancel_order oid b).snd
  | amend (oid : Nat) (p : Int) (q : Nat) (b : OrderBook) (hq : q < U64)
      (hb : ReachableNoOv b) (hs : SumsBounded (amend_order oid p q b).snd) :
      ReachableNoOv (amend_order oid p q b).snd

/- ### Registry (unordered_map) lemmas -/

theorem lookupGet_cons (kv : Nat × LookupValue) (m : List (Nat × LookupValue)) (k : Nat) :
    lookupGet (kv :: m) k = if kv.fst = k then some kv.snd else lookupGet m k := by
  by_cases h : kv.fst = k <;> simp [lookupGet, List.find?_cons, h]

theorem lookupGet_set_self (m : List (Nat × LookupValue)) (k : Nat) (v : LookupValue) :
    lookupGet (lookupSet m k v) k = some v := by
  induction m with
  | nil => simp [lookupSet, lookupGet_cons, lookupGet]
  | cons kv m ih =>
    by_cases h : kv.fst = k
    · simp [lookupSet, h, lookupGet_cons]
    · simp [lookupSet, h, lookupGet_cons, ih]

theorem lookupGet_set_ne (m : List (Nat × LookupValue)) (k k2 : Nat) (v : LookupValue)
    (h : k2 ≠ k) : lookupGet (lookupSet m k v) k2 = lookupGet m k2 := by
  have hk2 : k ≠ k2 := Ne.symm h
  induction m with
  | nil => simp [lookupSet, lookupGet_cons, lookupGet, hk2]
  | cons kv m ih =>
    by_cases hk : kv.fst = k
    · simp [lookupSet, hk, lookupGet_cons, hk2]
    · simp [lookupSet, hk, lookupGet_cons, ih]

theorem lookupGet_erase_self (m : List (Nat × LookupValue)) (k : Nat) :
    lookupGet (lookupErase m k) k = none := by
  induction m with
  | nil => rfl
  | cons kv m ih =>
    by_cases h : kv.fst = k
    · simpa [lookupErase, h] using ih
    · simpa [lookupErase, List.filter_cons, h, lookupGet_cons] using ih

theorem lookupGet_erase_ne (m : List (Nat × LookupValue)) (k k2 : Nat) (h : k2 ≠ k) :
    lookupGet (lookupErase m k) k2 = lookupGet m k2 := by
  induction m with
  | nil => rfl
  | cons kv m ih =>
    by_cases hk : kv.fst = k
    · have hf : lookupErase (kv :: m) k = lookupErase m k := by
        simp [lookupErase, List.filter_cons, hk]
      rw [hf, ih, lookupGet_cons, if_neg (by rw [hk]; exact Ne.symm h)]
    · have hf : lookupErase (kv :: m) k = kv :: lookupErase m k := by
        simp [lookupErase, List.filter_cons, hk]
      rw [hf, lookupGet_cons, lookupGet_cons, ih]

/- ### FIFO queue (std::list) lemmas -/

theorem sumQ_nil : sumQ [] = 0 := rfl

theorem sumQ_cons (e : Entry) (es : List Entry) :
    sumQ (e :: es) = e.ord.quantity + sumQ es := by
  simp [sumQ]

theorem sumQ_append (as bs : List Entry) : sumQ (as ++ bs) = sumQ as + sumQ bs := by
  simp [sumQ]

theorem findNode_split (nd : Nat) (es : List Entry) (e : Entry)
    (h : findNode nd es = some e) :
    ∃ as bs, es = as ++ e :: bs ∧ (∀ a ∈ as, (a.node == nd) = false) ∧ e.node = nd := by
  induction es with
  | nil => simp [findNode] at h
  | cons a es ih =>
    by_cases ha : a.node = nd
    · refine ⟨[], es, ?_, by simp, ?_⟩
      · simp [findNode, List.find?_cons, ha] at h
        simp [h]
      · simp [findNode, List.find?_cons, ha] at h
        rw [← h]
        exact ha
    · have h2 : findNode nd es = some e := by
        simpa [findNode, List.find?_cons, ha] using h
      obtain ⟨as, bs, h3, h4, h5⟩ := ih h2
      exact ⟨a :: as, bs, by simp [h3], by simpa [ha] using h4, h5⟩

theorem eraseNode_append_cons (nd : Nat) (as bs : List Entry) (e : Entry)
    (has : ∀ a ∈ as, (a.node == nd) = false) (he : e.node = nd) :
    eraseNode nd (as ++ e :: bs) = as ++ bs := by
  induction as with
  | nil => simp [eraseNode, List.eraseP_cons, he]
  | cons a as ih =>
    have ha : (a.node == nd) = false := has a (by simp)
    simp only [List.cons_append, eraseNode, List.eraseP_cons, ha]
    have := ih (fun x hx => has x (by simp [hx]))
    simpa [eraseNode] using this

theorem setQtyAtNode_append_cons (nd q : Nat) (as bs : List Entry) (e : Entry)
    (has : ∀ a ∈ as, (a.node == nd) = false) (he : e.node = nd) :
    setQtyAtNode nd q (as ++ e :: bs) =
      as ++ { e with ord := { e.ord with quantity := q } } :: bs := by
  induction as with
  | nil => simp [setQtyAtNode, he]
  | cons a as ih =>
    have ha : (a.node == nd) = false := has a (by simp)
    simp only [List.cons_append, setQtyAtNode, ha, Bool.false_eq_true, if_false]
    simp [ih (fun x hx => has x (by simp [hx]))]

/- ### Price ladder (std::map) lemmas -/

theorem findLevel_split (ls : List PriceLevelNode) (p : Int) (pl : PriceLevelNode)
    (h : findLevel ls p = some pl) :
    ∃ as bs, ls = as ++ pl :: bs ∧ (∀ a ∈ as, (a.price == p) = false) ∧ pl.price = p := by
  induction ls with
  | nil => simp [findLevel] at h
  | cons a ls ih =>
    by_cases ha : a.price = p
    · refine ⟨[], ls, ?_, by simp, ?_⟩
      · simp [findLevel, List.find?_cons, ha] at h
        simp [h]
      · simp [findLevel, List.find?_cons, ha] at h
        rw [← h]
        exact ha
    · have h2 : findLevel ls p = some pl := by
        simpa [findLevel, List.find?_cons, ha] using h
      obtain ⟨as, bs, h3, h4, h5⟩ := ih h2
      exact ⟨a :: as, bs, by simp [h3], by simpa [ha] using h4, h5⟩

theorem updateLevel_append_cons (p : Int) (f : PriceLevelNode → PriceLevelNode)
    (as bs : List PriceLevelNode) (pl : PriceLevelNode)
    (has : ∀ a ∈ as, (a.price == p) = false) (hp : pl.price = p) :
    updateLevel p f (as ++ pl :: bs) = as ++ f pl :: bs := by
  induction as with
  | nil => simp [updateLevel, hp]
  | cons a as ih =>
    have ha : (a.price == p) = false := has a (by simp)
    simp only [List.cons_append, updateLevel, ha, Bool.false_eq_true, if_false]
    simp [ih (fun x hx => has x (by simp [hx]))]

theorem removeLevel_append_cons (p : Int) (as bs : List PriceLevelNode)
    (pl : PriceLevelNode) (has : ∀ a ∈ as, (a.price == p) = false) (hp : pl.price = p) :
    removeLevel p (as ++ pl :: bs) = as ++ bs := by
  induction as with
  | nil => simp [removeLevel, hp]
  | cons a as ih =>
    have ha : (a.price == p) = false := has a (by simp)
    simp only [List.cons_append, removeLevel, ha, Bool.false_eq_true, if_false]
    simp [ih (fun x hx => has x (by simp [hx]))]

theorem findLevel_append_cons_self (as bs : List PriceLevelNode) (pl : PriceLevelNode)
    (p : Int) (has : ∀ a ∈ as, (a.price == p) = false) (hp : pl.price = p) :
    findLevel (as ++ pl :: bs) p = some pl := by
  induction as with
  | nil => simp [findLevel, List.find?_cons, hp]
  | cons a as ih =>
    have ha : (a.price == p) = false := has a (by simp)
    simp only [List.cons_append, findLevel, List.find?_cons, ha]
    exact ih (fun x hx => has x (by simp [hx]))

theorem findLevel_none (ls : List PriceLevelNode) (p : Int)
    (h : findLevel ls p = none) : ∀ l ∈ ls, l.price ≠ p := by
  intro l hl
  have := List.find?_eq_none.mp h l hl
  simpa using this

theorem findLevel_append_none (as bs : List PriceLevelNode) (p : Int)
    (ha : ∀ a ∈ as, (a.price == p) = false) (hb : ∀ a ∈ bs, (a.price == p) = false) :
    findLevel (as ++ bs) p = none := by
  apply List.find?_eq_none.mpr
  intro x hx
  rcases List.mem_append.mp hx with h | h
  · simp [ha x h]
  · simp [hb x h]

/-- Every level of the ladder after an insertion is an untouched original
level, the original level at the order's price with the new entry pushed
back, or a freshly created singleton level. -/
theorem mem_ladderAdd (before : Int → Int → Bool) (nd : Nat) (o : Order)
    (ls : List PriceLevelNode) (x : PriceLevelNode)
    (hx : x ∈ ladderAdd before nd o ls) :
    x ∈ ls ∨
    (∃ l ∈ ls, l.price = o.price ∧
      x = ⟨l.price, (l.total_quantity + o.quantity) % U64, l.orders ++ [⟨nd, o⟩]⟩) ∨
    x = ⟨o.price, o.quantity, [⟨nd, o⟩]⟩ := by
  induction ls with
  | nil =>
    simp [ladderAdd] at hx
    simp [hx]
  | cons l ls ih =>
    by_cases h1 : l.price = o.price
    · simp only [ladderAdd, h1, beq_self_eq_true, if_true, List.mem_cons] at hx
      rcases hx with h | h
      · exact Or.inr (Or.inl ⟨l, by simp, h1, by simp [h, h1]⟩)
      · exact Or.inl (by simp [h])
    · have hb1 : (l.price == o.price) = false := by simpa using h1
      by_cases h2 : before o.price l.price
      · simp only [ladderAdd, hb1, Bool.false_eq_true, if_false, h2, if_true,
          List.mem_cons] at hx
        rcases hx with h | h | h
        · exact Or.inr (Or.inr h)
        · exact Or.inl (by simp [h])
        · exact Or.inl (by simp [h])
      · simp only [ladderAdd, hb1, Bool.false_eq_true, if_false, h2,
          List.mem_cons] at hx
        rcases hx with h | h
        · exact Or.inl (by simp [h])
        · rcases ih h with h3 | ⟨l2, hl2, h4, h5⟩ | h3
          · exact Or.inl (by simp [h3])
          · exact Or.inr (Or.inl ⟨l2, by simp [hl2], h4, h5⟩)
          · exact Or.inr (Or.inr h3)

theorem findLevel_ladderAdd_ne (before : Int → Int → Bool) (nd : Nat) (o : Order)
    (ls : List PriceLevelNode) (p : Int) (hp : p ≠ o.price) :
    findLevel (ladderAdd before nd o ls) p = findLevel ls p := by
  have hop : (o.price == p) = false := by simpa using Ne.symm hp
  induction ls with
  | nil => simp [ladderAdd, findLevel, List.find?_cons, hop]
  | cons l ls ih =>
    by_cases h1 : l.price = o.price
    · have hlp : (l.price == p) = false := by simpa [h1] using Ne.symm hp
      simp [ladderAdd, h1, findLevel, List.find?_cons, hlp, hop]
    · have hb1 : (l.price == o.price) = false := by simpa using h1
      by_cases h2 : before o.price l.price
      · simp [ladderAdd, hb1, h2, findLevel, List.find?_cons, hop]
      · have hrec : ladderAdd before nd o (l :: ls) = l :: ladderAdd before nd o ls := by
          simp [ladderAdd, hb1, h2]
        rw [hrec]
        by_cases hlp : l.price = p
        · simp [findLevel, List.find?_cons, hlp]
        · have hlp2 : (l.price == p) = false := by simpa using hlp
          simpa [findLevel, List.find?_cons, hlp2] using ih

/-- After an insertion the ladder has a level at the order's price, and
the new entry sits at the back of that level's FIFO queue. -/
theorem findLevel_ladderAdd_self (before : Int → Int → Bool) (nd : Nat) (o : Order)
    (ls : List PriceLevelNode) :
    ∃ l2, findLevel (ladderAdd before nd o ls) o.price = some l2 ∧
      l2.price = o.price ∧ l2.orders.getLast? = some ⟨nd, o⟩ := by
  induction ls with
  | nil =>
    refine ⟨⟨o.price, o.quantity, [⟨nd, o⟩]⟩, ?_, rfl, ?_⟩
    · simp [ladderAdd, findLevel, List.find?_cons]
    · simp
  | cons l ls ih =>
    by_cases h1 : l.price = o.price
    · refine ⟨⟨l.price, (l.total_quantity + o.quantity) % U64,
        l.orders ++ [⟨nd, o⟩]⟩, ?_, h1, ?_⟩
      · simp [ladderAdd, h1, findLevel, List.find?_cons]
      · simp
    · have hb1 : (l.price == o.price) = false := by simpa using h1
      by_cases h2 : before o.price l.price
      · refine ⟨⟨o.price, o.quantity, [⟨nd, o⟩]⟩, ?_, rfl, ?_⟩
        · simp [ladderAdd, hb1, h2, findLevel, List.find?_cons]
        · simp
      · obtain ⟨l2, h3, h4, h5⟩ := ih
        refine ⟨l2, ?_, h4, h5⟩
        have hrec : ladderAdd before nd o (l :: ls) = l :: ladderAdd before nd o ls := by
          simp [ladderAdd, hb1, h2]
        rw [hrec]
        simpa [findLevel, List.find?_cons, hb1] using h3

/-- On a ladder sorted by the map comparator, inserting at a price that
already has a level appends to exactly the level the map find returns,
leaving every other level untouched. -/
theorem ladderAdd_split (before : Int → Int → Bool)
    (htr : ∀ a b c, before a b = true → before b c = true → before a c = true)
    (hirr : ∀ a, before a a = false)
    (nd : Nat) (o : Order) (ls : List PriceLevelNode) (pl : PriceLevelNode)
    (hs : ls.Pairwise (fun x y => before x.price y.price = true))
    (hf : findLevel ls o.price = some pl) :
    ∃ as bs, ls = as ++ pl :: bs ∧ (∀ a ∈ as, (a.price == o.price) = false) ∧
      ladderAdd before nd o ls =
        as ++ ⟨pl.price, (pl.total_quantity + o.quantity) % U64,
          pl.orders ++ [⟨nd, o⟩]⟩ :: bs := by
  induction ls with
  | nil => simp [findLevel] at hf
  | cons l ls ih =>
    by_cases h1 : l.price = o.price
    · have hpl : pl = l := by
        simp [findLevel, List.find?_cons, h1] at hf
        exact hf.symm
      subst hpl
      exact ⟨[], ls, by simp, by simp, by simp [ladderAdd, h1]⟩
    · have hb1 : (l.price == o.price) = false := by simpa using h1
      have hf2 : findLevel ls o.price = some pl := by
        simpa [findLevel, List.find?_cons, hb1] using hf
      by_cases h2 : before o.price l.price
      · exfalso
        obtain ⟨as, bs, he, _, hp⟩ := findLevel_split ls o.price pl hf2
        have hmem : pl ∈ ls := by rw [he]; simp
        have h3 : before l.price pl.price = true := (List.pairwise_cons.mp hs).1 pl hmem
        have h4 : before o.price pl.price = true := htr _ _ _ h2 h3
        rw [hp] at h4
        simp [hirr] at h4
      · obtain ⟨as, bs, he, ha, hq⟩ := ih (List.pairwise_cons.mp hs).2 hf2
        refine ⟨l :: as, bs, by simp [he], ?_, ?_⟩
        · intro a hx
          rcases List.mem_cons.mp hx with h | h
          · simp [h, hb1]
          · exact ha a h
        · simp [ladderAdd, hb1, h2, hq]

/-- std::map insertion keeps the ladder sorted by its comparator. -/
theorem ladderAdd_pairwise (before : Int → Int → Bool)
    (htr : ∀ a b c, before a b = true → before b c = true → before a c = true)
    (hconn : ∀ a b : Int, a ≠ b → before a b = true ∨ before b a = true)
    (nd : Nat) (o : Order) (ls : List PriceLevelNode)
    (hs : ls.Pairwise (fun x y => before x.price y.price = true)) :
    (ladderAdd before nd o ls).Pairwise (fun x y => before x.price y.price = true) := by
  induction ls with
  | nil => simp [ladderAdd]
  | cons l ls ih =>
    obtain ⟨hl, hs2⟩ := List.pairwise_cons.mp hs
    by_cases h1 : l.price = o.price
    · rw [ladderAdd, if_pos (by simpa using h1)]
      exact List.pairwise_cons.mpr ⟨hl, hs2⟩
    · have hb1 : (l.price == o.price) = false := by simpa using h1
      by_cases h2 : before o.price l.price
      · rw [ladderAdd, if_neg (by simp [hb1]), if_pos h2]
        refine List.pairwise_cons.mpr ⟨?_, hs⟩
        intro y hy
        rcases List.mem_cons.mp hy with h | h
        · simpa [h] using h2
        · exact htr _ _ _ h2 (hl y h)
      · rw [ladderAdd, if_neg (by simp [hb1]), if_neg h2]
        refine List.pairwise_cons.mpr ⟨?_, ih hs2⟩
        intro y hy
        rcases mem_ladderAdd before nd o ls y hy with h | ⟨l2, hl2, hp2, he2⟩ | h
        · exact hl y h
        · rw [he2]
          simpa [hp2] using hl l2 hl2
        · rw [h]
          rcases hconn l.price o.price h1 with h3 | h3
          · exact h3
          · exact absurd h3 (by simpa using h2)

/- ### Well-formedness of reachable books -/

def nodesOfLevel (l : PriceLevelNode) : List Nat := l.orders.map (fun e => e.node)

def nodesOf (ls : List PriceLevelNode) : List Nat := ls.bind nodesOfLevel

def allNodes (b : OrderBook) : List Nat := nodesOf b.bids ++ nodesOf b.asks

/-- Well-formedness invariant of the book state: list node tags are
fresh and globally distinct (they model distinct list node addresses),
each ladder is sorted by its map comparator, no level has an empty FIFO
queue, orders rest on the ladder matching their side, and every registry
entry dereferences to a live list node whose order carries the
registered id. -/
structure Inv (b : OrderBook) : Prop where
  fresh : ∀ n ∈ allNodes b, n < b.next_node
  nodup : (allNodes b).Nodup
  bidsSorted : b.bids.Pairwise (fun x y => bidBefore x.price y.price = true)
  asksSorted : b.asks.Pairwise (fun x y => askBefore x.price y.price = true)
  bidsNE : ∀ l ∈ b.bids, l.orders ≠ []
  asksNE : ∀ l ∈ b.asks, l.orders ≠ []
  bidsSide : ∀ l ∈ b.bids, ∀ e ∈ l.orders, e.ord.is_buy = true
  asksSide : ∀ l ∈ b.asks, ∀ e ∈ l.orders, e.ord.is_buy = false
  reg : ∀ k lv, lookupGet b.order_lookup k = some lv →
    ∃ pl, findLevel (sideOf b lv.is_buy) lv.price = some pl ∧
      ∃ e ∈ pl.orders, e.node = lv.node ∧ e.ord.order_id = k

theorem bidBefore_trans (a b c : Int) (h1 : bidBefore a b = true)
    (h2 : bidBefore b c = true) : bidBefore a c = true := by
  simp [bidBefore] at h1 h2 ⊢
  omega

theorem bidBefore_irrefl (a : Int) : bidBefore a a = false := by simp [bidBefore]

theorem bidBefore_conn (a b : Int) (h : a ≠ b) :
    bidBefore a b = true ∨ bidBefore b a = true := by
  simp [bidBefore]
  omega

theorem askBefore_trans (a b c : Int) (h1 : askBefore a b = true)
    (h2 : askBefore b c = true) : askBefore a c = true := by
  simp [askBefore] at h1 h2 ⊢
  omega

theorem askBefore_irrefl (a : Int) : askBefore a a = false := by simp [askBefore]

theorem askBefore_conn (a b : Int) (h : a ≠ b) :
    askBefore a b = true ∨ askBefore b a = true := by
  simp [askBefore]
  omega

theorem mem_of_getLast (es : List Entry) (x : Entry) (h : es.getLast? = some x) :
    x ∈ es := by
  induction es with
  | nil => simp at h
  | cons a es ih =>
    rcases es with _ | ⟨b, es⟩
    · simp at h
      simp [h]
    · rw [List.getLast?_cons_cons] at h
      exact List.mem_cons_of_mem a (ih h)

/-- Distinct node tags identify entries uniquely within a queue. -/
theorem eq_of_node_eq (es : List Entry) (a b : Entry)
    (h : (es.map (fun e => e.node)).Nodup) (ha : a ∈ es) (hb : b ∈ es)
    (hn : a.node = b.node) : a = b := by
  induction es with
  | nil => simp at ha
  | cons x es ih =>
    simp only [List.map_cons, List.nodup_cons] at h
    rcases List.mem_cons.mp ha with h1 | h1 <;> rcases List.mem_cons.mp hb with h2 | h2
    · rw [h1, h2]
    · exfalso
      apply h.1
      rw [← h1, hn]
      exact List.mem_map.mpr ⟨b, h2, rfl⟩
    · exfalso
      apply h.1
      rw [← h2, ← hn]
      exact List.mem_map.mpr ⟨a, h1, rfl⟩
    · exact ih h.2 h1 h2

theorem nodesOf_append (xs ys : List PriceLevelNode) :
    nodesOf (xs ++ ys) = nodesOf xs ++ nodesOf ys := by
  simp [nodesOf]

theorem nodesOf_cons (l : PriceLevelNode) (ls : List PriceLevelNode) :
    nodesOf (l :: ls) = nodesOfLevel l ++ nodesOf ls := by
  simp [nodesOf]

/-- Inserting an order adds exactly one fresh node tag to the ladder. -/
theorem nodesOf_ladderAdd_perm (before : Int → Int → Bool) (nd : Nat) (o : Order)
    (ls : List PriceLevelNode) :
    (nodesOf (ladderAdd before nd o ls)).Perm (nd :: nodesOf ls) := by
  induction ls with
  | nil => simp [ladderAdd, nodesOf, nodesOfLevel]
  | cons l ls ih =>
    by_cases h1 : l.price = o.price
    · rw [ladderAdd, if_pos (by simpa using h1)]
      rw [nodesOf_cons, nodesOf_cons]
      simp only [nodesOfLevel, List.map_append, List.map_cons, List.map_nil,
        List.append_assoc, List.singleton_append]
      exact List.perm_middle
    · have hb1 : (l.price == o.price) = false := by simpa using h1
      by_cases h2 : before o.price l.price
      · rw [ladderAdd, if_neg (by simp [hb1]), if_pos h2]
        simp [nodesOf_cons, nodesOfLevel]
      · rw [ladderAdd, if_neg (by simp [hb1]), if_neg h2]
        rw [nodesOf_cons, nodesOf_cons]
        exact (List.Perm.append_left _ ih).trans List.perm_middle

theorem findLevel_removeLevel_ne (ls : List PriceLevelNode) (lvp p : Int)
    (hp : p ≠ lvp) : findLevel (removeLevel lvp ls) p = findLevel ls p := by
  induction ls with
  | nil => rfl
  | cons l ls ih =>
    by_cases h1 : l.price = lvp
    · rw [removeLevel, if_pos (by simpa using h1)]
      have : (l.price == p) = false := by simp [h1, Ne.symm hp]
      simp [findLevel, List.find?_cons, this]
    · rw [removeLevel, if_neg (by simpa using h1)]
      by_cases h2 : l.price = p
      · simp [findLevel, List.find?_cons, h2]
      · have : (l.price == p) = false := by simpa using h2
        simpa [findLevel, List.find?_cons, this] using ih

theorem findLevel_updateLevel_ne (ls : List PriceLevelNode) (lvp p : Int)
    (f : PriceLevelNode → PriceLevelNode)
    (hf : ∀ l, l.price = lvp → (f l).price = l.price) (hp : p ≠ lvp) :
    findLevel (updateLevel lvp f ls) p = findLevel ls p := by
  induction ls with
  | nil => rfl
  | cons l ls ih =>
    by_cases h1 : l.price = lvp
    · rw [updateLevel, if_pos (by simpa using h1)]
      have hfp : ((f l).price == p) = false := by
        rw [hf l h1]
        simp [h1, Ne.symm hp]
      have hlp : (l.price == p) = false := by simp [h1, Ne.symm hp]
      simp [findLevel, List.find?_cons, hfp, hlp]
    · rw [updateLevel, if_neg (by simpa using h1)]
      by_cases h2 : l.price = p
      · simp [findLevel, List.find?_cons, h2]
      · have : (l.price == p) = false := by simpa using h2
        simpa [findLevel, List.find?_cons, this] using ih

/-- Replacing a level by one with the same price keeps the ladder sorted. -/
theorem pairwise_price_replace (R : Int → Int → Bool)
    (as bs : List PriceLevelNode) (pl newpl : PriceLevelNode)
    (hp : newpl.price = pl.price)
    (h : (as ++ pl :: bs).Pairwise (fun x y => R x.price y.price = true)) :
    (as ++ newpl :: bs).Pairwise (fun x y => R x.price y.price = true) := by
  rw [List.pairwise_append] at h ⊢
  obtain ⟨h1, h2, h3⟩ := h
  rw [List.pairwise_cons] at h2
  refine ⟨h1, List.pairwise_cons.mpr ⟨?_, h2.2⟩, ?_⟩
  · intro y hy
    rw [hp]
    exact h2.1 y hy
  · intro x hx y hy
    rcases List.mem_cons.mp hy with h4 | h4
    · rw [h4, hp]
      exact h3 x hx pl (by simp)
    · exact h3 x hx y (by simp [h4])

theorem setQtyAtNode_map_node (nd q : Nat) (es : List Entry) :
    (setQtyAtNode nd q es).map (fun e => e.node) = es.map (fun e => e.node) := by
  induction es with
  | nil => rfl
  | cons a es ih =>
    by_cases h : a.node = nd
    · simp [setQtyAtNode, h]
    · have : (a.node == nd) = false := by simpa using h
      simp [setQtyAtNode, this, ih]

theorem mem_setQtyAtNode (nd q : Nat) (es : List Entry) (x : Entry)
    (hx : x ∈ setQtyAtNode nd q es) :
    x ∈ es ∨ ∃ a ∈ es, x = { a with ord := { a.ord with quantity := q } } := by
  induction es with
  | nil => simp [setQtyAtNode] at hx
  | cons a es ih =>
    by_cases h : a.node = nd
    · rw [setQtyAtNode, if_pos (by simpa using h)] at hx
      rcases List.mem_cons.mp hx with h1 | h1
      · exact Or.inr ⟨a, by simp, h1⟩
      · exact Or.inl (by simp [h1])
    · rw [setQtyAtNode, if_neg (by simpa using h)] at hx
      rcases List.mem_cons.mp hx with h1 | h1
      · exact Or.inl (by simp [h1])
      · rcases ih h1 with h2 | ⟨a2, h3, h4⟩
        · exact Or.inl (by simp [h2])
        · exact Or.inr ⟨a2, by simp [h3], h4⟩

theorem exists_setQtyAtNode (nd q : Nat) (es : List Entry) (a : Entry) (ha : a ∈ es) :
    ∃ x ∈ setQtyAtNode nd q es, x.node = a.node ∧ x.ord.order_id = a.ord.order_id := by
  induction es with
  | nil => simp at ha
  | cons e es ih =>
    by_cases h : e.node = nd
    · rw [setQtyAtNode, if_pos (by simpa using h)]
      rcases List.mem_cons.mp ha with h1 | h1
      · exact ⟨{ e with ord := { e.ord with quantity := q } }, by simp, by simp [h1]⟩
      · exact ⟨a, by simp [h1], rfl, rfl⟩
    · rw [setQtyAtNode, if_neg (by simpa using h)]
      rcases List.mem_cons.mp ha with h1 | h1
      · exact ⟨e, by simp, by simp [h1]⟩
      · obtain ⟨x, h2, h3⟩ := ih h1
        exact ⟨x, by simp [h2], h3⟩

theorem next_notin_allNodes (b : OrderBook) (hi : Inv b) : b.next_node ∉ allNodes b := by
  intro h
  exact absurd (hi.fresh _ h) (lt_irrefl _)

/-- add_order preserves well-formedness. -/
theorem Inv_add (o : Order) (b : OrderBook) (hi : Inv b) : Inv (add_order o b) := by
  by_cases hq : o.quantity = 0
  · simpa [add_order, hq] using hi
  · cases hb : o.is_buy with
    | false =>
      simp only [add_order, hq, if_false, hb, Bool.false_eq_true, if_true]
      have hperm : (allNodes { b with
          asks := ladderAdd askBefore b.next_node o b.asks,
          order_lookup := lookupSet b.order_lookup o.order_id ⟨false, o.price, b.next_node⟩,
          next_node := b.next_node + 1 }).Perm (b.next_node :: allNodes b) := by
        simp only [allNodes]
        exact (List.Perm.append_left _ (nodesOf_ladderAdd_perm _ _ _ _)).trans
          List.perm_middle
      refine ⟨?_, ?_, ?_, ?_, ?_, ?_, ?_, ?_, ?_⟩
      · intro n hn
        rcases List.mem_cons.mp (hperm.mem_iff.mp hn) with h | h
        · simp [h]
        · exact Nat.lt_succ_of_lt (hi.fresh n h)
      · exact hperm.symm.nodup (List.nodup_cons.mpr ⟨next_notin_allNodes b hi, hi.nodup⟩)
      · exact hi.bidsSorted
      · exact ladderAdd_pairwise askBefore askBefore_trans askBefore_conn _ _ _ hi.asksSorted
      · exact hi.bidsNE
      · intro l hl
        rcases mem_ladderAdd _ _ _ _ _ hl with h | ⟨l2, _, _, h⟩ | h
        · exact hi.asksNE l h
        · simp [h]
        · simp [h]
      · exact hi.bidsSide
      · intro l hl e he
        rcases mem_ladderAdd _ _ _ _ _ hl with h | ⟨l2, hl2, _, h⟩ | h
        · exact hi.asksSide l h e he
        · rw [h] at he
          rcases List.mem_append.mp he with h2 | h2
          · exact hi.asksSide l2 hl2 e h2
          · simp at h2
            simp [h2, hb]
        · rw [h] at he
          simp at he
          simp [he, hb]
      · intro k lv hk
        by_cases hko : k = o.order_id
        · subst hko
          rw [lookupGet_set_self] at hk
          obtain ⟨l2, h1, h2, h3⟩ := findLevel_ladderAdd_self askBefore b.next_node o b.asks
          cases hk
          refine ⟨l2, ?_, ⟨b.next_node, o⟩, mem_of_getLast _ _ h3, rfl, rfl⟩
          simpa [sideOf] using h1
        · rw [lookupGet_set_ne _ _ _ _ hko] at hk
          obtain ⟨pl, hf, e, he, hn, hid⟩ := hi.reg k lv hk
          cases hlb : lv.is_buy with
          | false =>
            simp only [sideOf, hlb, Bool.false_eq_true, if_false] at hf
            by_cases hp : lv.price = o.price
            · rw [hp] at hf
              obtain ⟨as, bs, heq, hnm, hres⟩ := ladderAdd_split askBefore
                askBefore_trans askBefore_irrefl b.next_node o b.asks pl
                hi.asksSorted hf
              have hfp : pl.price = o.price := by
                obtain ⟨_, _, _, _, h5⟩ := findLevel_split _ _ _ hf
                exact h5
              refine ⟨⟨pl.price, (pl.total_quantity + o.quantity) % U64,
                pl.orders ++ [⟨b.next_node, o⟩]⟩, ?_, e, by simp [he], hn, hid⟩
              simp only [sideOf, hlb, Bool.false_eq_true, if_false]
              simp only [hp]
              rw [hres]
              exact findLevel_append_cons_self as bs _ o.price hnm hfp
            · refine ⟨pl, ?_, e, he, hn, hid⟩
              simp only [sideOf, hlb, Bool.false_eq_true, if_false]
              rw [findLevel_ladderAdd_ne askBefore b.next_node o b.asks lv.price hp]
              exact hf
          | true =>
            simp only [sideOf, hlb, if_true] at hf
            refine ⟨pl, ?_, e, he, hn, hid⟩
            simp only [sideOf, hlb, if_true]
            exact hf
    | true =>
      simp only [add_order, hq, if_false, hb, if_true]
      have hperm : (allNodes { b with
          bids := ladderAdd bidBefore b.next_node o b.bids,
          order_lookup := lookupSet b.order_lookup o.order_id ⟨true, o.price, b.next_node⟩,
          next_node := b.next_node + 1 }).Perm (b.next_node :: allNodes b) := by
        simp only [allNodes]
        exact List.Perm.append_right _ (nodesOf_ladderAdd_perm _ _ _ _)
      refine ⟨?_, ?_, ?_, ?_, ?_, ?_, ?_, ?_, ?_⟩
      · intro n hn
        rcases List.mem_cons.mp (hperm.mem_iff.mp hn) with h | h
        · simp [h]
        · exact Nat.lt_succ_of_lt (hi.fresh n h)
      · exact hperm.symm.nodup (List.nodup_cons.mpr ⟨next_notin_allNodes b hi, hi.nodup⟩)
      · exact ladderAdd_pairwise bidBefore bidBefore_trans bidBefore_conn _ _ _ hi.bidsSorted
      · exact hi.asksSorted
      · intro l hl
        rcases mem_ladderAdd _ _ _ _ _ hl with h | ⟨l2, _, _, h⟩ | h
        · exact hi.bidsNE l h
        · simp [h]
        · simp [h]
      · exact hi.asksNE
      · intro l hl e he
        rcases mem_ladderAdd _ _ _ _ _ hl with h | ⟨l2, hl2, _, h⟩ | h
        · exact hi.bidsSide l h e he
        · rw [h] at he
          rcases List.mem_append.mp he with h2 | h2
          · exact hi.bidsSide l2 hl2 e h2
          · simp at h2
            simp [h2, hb]
        · rw [h] at he
          simp at he
          simp [he, hb]
      · exact hi.asksSide
      · intro k lv hk
        by_cases hko : k = o.order_id
        · subst hko
          rw [lookupGet_set_self] at hk
          obtain ⟨l2, h1, h2, h3⟩ := findLevel_ladderAdd_self bidBefore b.next_node o b.bids
          cases hk
          refine ⟨l2, ?_, ⟨b.next_node, o⟩, mem_of_getLast _ _ h3, rfl, rfl⟩
          simpa [sideOf] using h1
        · rw [lookupGet_set_ne _ _ _ _ hko] at hk
          obtain ⟨pl, hf, e, he, hn, hid⟩ := hi.reg k lv hk
          cases hlb : lv.is_buy with
          | false =>
            simp only [sideOf, hlb, Bool.false_eq_true, if_false] at hf
            refine ⟨pl, ?_, e, he, hn, hid⟩
            simp only [sideOf, hlb, Bool.false_eq_true, if_false]
            exact hf
          | true =>
            simp only [sideOf, hlb, if_true] at hf
            by_cases hp : lv.price = o.price
            · rw [hp] at hf
              obtain ⟨as, bs, heq, hnm, hres⟩ := ladderAdd_split bidBefore
                bidBefore_trans bidBefore_irrefl b.next_node o b.bids pl
                hi.bidsSorted hf
              have hfp : pl.price = o.price := by
                obtain ⟨_, _, _, _, h5⟩ := findLevel_split _ _ _ hf
                exact h5
              refine ⟨⟨pl.price, (pl.total_quantity + o.quantity) % U64,
                pl.orders ++ [⟨b.next_node, o⟩]⟩, ?_, e, by simp [he], hn, hid⟩
              simp only [sideOf, hlb, if_true]
              simp only [hp]
              rw [hres]
              exact findLevel_append_cons_self as bs _ o.price hnm hfp
            · refine ⟨pl, ?_, e, he, hn, hid⟩
              simp only [sideOf, hlb, if_true]
              rw [findLevel_ladderAdd_ne bidBefore b.next_node o b.bids lv.price hp]
              exact hf

theorem mem_nodesOf (ls : List PriceLevelNode) (l : PriceLevelNode) (e : Entry)
    (hl : l ∈ ls) (he : e ∈ l.orders) : e.node ∈ nodesOf ls := by
  apply List.mem_bind.mpr
  exact ⟨l, hl, List.mem_map.mpr ⟨e, he, rfl⟩⟩

theorem nodesOfLevel_sublist (ls : List PriceLevelNode) (l : PriceLevelNode)
    (hl : l ∈ ls) : List.Sublist (nodesOfLevel l) (nodesOf ls) := by
  induction ls with
  | nil => simp at hl
  | cons x ls ih =>
    rw [nodesOf_cons]
    rcases List.mem_cons.mp hl with h | h
    · rw [h]
      exact List.sublist_append_left _ _
    · exact (ih h).trans (List.sublist_append_right _ _)

theorem sideNodes_nodup (b : OrderBook) (hi : Inv b) (buy : Bool) :
    (nodesOf (sideOf b buy)).Nodup := by
  have h := hi.nodup
  rw [allNodes, List.nodup_append] at h
  cases buy
  · simpa [sideOf] using h.2.1
  · simpa [sideOf] using h.1

theorem level_nodup (b : OrderBook) (hi : Inv b) (buy : Bool) (pl : PriceLevelNode)
    (hpl : pl ∈ sideOf b buy) : (pl.orders.map (fun e => e.node)).Nodup := by
  exact (nodesOfLevel_sublist _ _ hpl).nodup (sideNodes_nodup b hi buy)

/-- The two possible shapes of the removal step, given the decompositions
the map find and the iterator dereference produce. -/
theorem ladderAfterErase_cases (lvp : Int) (nd qty : Nat) (pl : PriceLevelNode)
    (ls : List PriceLevelNode) (as bs : List PriceLevelNode) (es1 es2 : List Entry)
    (e : Entry) (hls : ls = as ++ pl :: bs)
    (hnm : ∀ a ∈ as, (a.price == lvp) = false) (hpp : pl.price = lvp)
    (hes : pl.orders = es1 ++ e :: es2)
    (hnn : ∀ a ∈ es1, (a.node == nd) = false) (hen : e.node = nd) :
    (es1 = [] ∧ es2 = [] ∧ ladderAfterErase lvp nd qty pl ls = as ++ bs) ∨
    (es1 ++ es2 ≠ [] ∧ ladderAfterErase lvp nd qty pl ls =
      as ++ ⟨pl.price, clampSub pl.total_quantity qty, es1 ++ es2⟩ :: bs) := by
  have herase : eraseNode nd pl.orders = es1 ++ es2 := by
    rw [hes]
    exact eraseNode_append_cons nd es1 es2 e hnn hen
  by_cases hemp : es1 ++ es2 = []
  · rcases List.append_eq_nil.mp hemp with ⟨h1, h2⟩
    refine Or.inl ⟨h1, h2, ?_⟩
    rw [ladderAfterErase]
    simp only [herase, hemp, List.isEmpty_nil, if_true, hls]
    exact removeLevel_append_cons lvp as bs pl hnm hpp
  · refine Or.inr ⟨hemp, ?_⟩
    rw [ladderAfterErase]
    simp only [herase]
    rw [if_neg (by simp [List.isEmpty_iff, hemp]), hls]
    exact updateLevel_append_cons lvp _ as bs pl hnm hpp

theorem findLevel_ladderAfterErase_ne (lvp p : Int) (nd qty : Nat)
    (pl : PriceLevelNode) (ls : List PriceLevelNode) (hpp : pl.price = lvp)
    (hp : p ≠ lvp) :
    findLevel (ladderAfterErase lvp nd qty pl ls) p = findLevel ls p := by
  rw [ladderAfterErase]
  by_cases h : (eraseNode nd pl.orders).isEmpty
  · simp only [h, if_true]
    exact findLevel_removeLevel_ne ls lvp p hp
  · simp only [h, Bool.false_eq_true, if_false]
    exact findLevel_updateLevel_ne ls lvp p _ (fun l hl => by simp [hpp, hl]) hp

/-- No node of the removed order survives anywhere on its side. -/
theorem node_gone_after_erase (lvp : Int) (nd qty : Nat) (pl : PriceLevelNode)
    (ls : List PriceLevelNode) (as bs : List PriceLevelNode) (es1 es2 : List Entry)
    (e : Entry) (hls : ls = as ++ pl :: bs)
    (hnm : ∀ a ∈ as, (a.price == lvp) = false) (hpp : pl.price = lvp)
    (hes : pl.orders = es1 ++ e :: es2)
    (hnn : ∀ a ∈ es1, (a.node == nd) = false) (hen : e.node = nd)
    (hnodup : (nodesOf ls).Nodup) :
    ∀ pl2 ∈ ladderAfterErase lvp nd qty pl ls, ∀ e2 ∈ pl2.orders, e2.node ≠ nd := by
  have hnd : nd ∈ nodesOfLevel pl := by
    rw [nodesOfLevel, hes]
    simp [hen]
  have hsplit : nodesOf ls = nodesOf as ++ (nodesOfLevel pl ++ nodesOf bs) := by
    rw [hls, nodesOf_append, nodesOf_cons]
  have hnotas : nd ∉ nodesOf as := by
    intro hmem
    rw [hsplit, List.nodup_append] at hnodup
    exact hnodup.2.2 hmem (by simp [hnd])
  have hnotbs : nd ∉ nodesOf bs := by
    intro hmem
    rw [hsplit, List.nodup_append] at hnodup
    have h2 := hnodup.2.1
    rw [List.nodup_append] at h2
    exact h2.2.2 hnd hmem
  have hlevel : (pl.orders.map (fun x => x.node)).Nodup := by
    have := (nodesOfLevel_sublist ls pl (by rw [hls]; simp)).nodup hnodup
    simpa [nodesOfLevel] using this
  have hnotes : nd ∉ (es1.map (fun x => x.node)) ∧ nd ∉ (es2.map (fun x => x.node)) := by
    rw [hes] at hlevel
    simp only [List.map_append, List.map_cons, List.nodup_append, List.nodup_cons,
      hen] at hlevel
    constructor
    · intro hmem
      exact hlevel.2.2 hmem (by simp)
    · intro hmem
      exact hlevel.2.1.1 hmem
  intro pl2 hpl2 e2 he2 hne
  rcases ladderAfterErase_cases lvp nd qty pl ls as bs es1 es2 e hls hnm hpp hes hnn hen
    with ⟨h1, h2, hres⟩ | ⟨h1, hres⟩
  · rw [hres] at hpl2
    rcases List.mem_append.mp hpl2 with h | h
    · exact hnotas (by rw [← hne]; exact mem_nodesOf as pl2 e2 h he2)
    · exact hnotbs (by rw [← hne]; exact mem_nodesOf bs pl2 e2 h he2)
  · rw [hres] at hpl2
    rcases List.mem_append.mp hpl2 with h | h
    · exact hnotas (by rw [← hne]; exact mem_nodesOf as pl2 e2 h he2)
    · rcases List.mem_cons.mp h with h2 | h2
      · rw [h2] at he2
        simp only at he2
        rcases List.mem_append.mp he2 with h3 | h3
        · exact hnotes.1 (by rw [← hne]; exact List.mem_map.mpr ⟨e2, h3, rfl⟩)
        · exact hnotes.2 (by rw [← hne]; exact List.mem_map.mpr ⟨e2, h3, rfl⟩)
      · exact hnotbs (by rw [← hne]; exact mem_nodesOf bs pl2 e2 h2 he2)

theorem ladderAfterErase_mem (lvp : Int) (nd qty : Nat) (pl : PriceLevelNode)
    (ls : List PriceLevelNode) (as bs : List PriceLevelNode) (es1 es2 : List Entry)
    (e : Entry) (hls : ls = as ++ pl :: bs)
    (hnm : ∀ a ∈ as, (a.price == lvp) = false) (hpp : pl.price = lvp)
    (hes : pl.orders = es1 ++ e :: es2)
    (hnn : ∀ a ∈ es1, (a.node == nd) = false) (hen : e.node = nd) :
    ∀ l2 ∈ ladderAfterErase lvp nd qty pl ls, l2 ∈ ls ∨
      (l2 = ⟨pl.price, clampSub pl.total_quantity qty, es1 ++ es2⟩ ∧ es1 ++ es2 ≠ []) := by
  intro l2 hl2
  rcases ladderAfterErase_cases lvp nd qty pl ls as bs es1 es2 e hls hnm hpp hes hnn hen
    with ⟨h1, h2, hres⟩ | ⟨h1, hres⟩
  · rw [hres] at hl2
    rw [hls]
    rcases List.mem_append.mp hl2 with h | h
    · exact Or.inl (by simp [h])
    · exact Or.inl (by simp [h])
  · rw [hres] at hl2
    rcases List.mem_append.mp hl2 with h | h
    · exact Or.inl (by rw [hls]; simp [h])
    · rcases List.mem_cons.mp h with h2 | h2
      · exact Or.inr ⟨h2, h1⟩
      · exact Or.inl (by rw [hls]; simp [h2])

theorem ladderAfterErase_sublist (lvp : Int) (nd qty : Nat) (pl : PriceLevelNode)
    (ls : List PriceLevelNode) (as bs : List PriceLevelNode) (es1 es2 : List Entry)
    (e : Entry) (hls : ls = as ++ pl :: bs)
    (hnm : ∀ a ∈ as, (a.price == lvp) = false) (hpp : pl.price = lvp)
    (hes : pl.orders = es1 ++ e :: es2)
    (hnn : ∀ a ∈ es1, (a.node == nd) = false) (hen : e.node = nd) :
    List.Sublist (nodesOf (ladderAfterErase lvp nd qty pl ls)) (nodesOf ls) := by
  rcases ladderAfterErase_cases lvp nd qty pl ls as bs es1 es2 e hls hnm hpp hes hnn hen
    with ⟨h1, h2, hres⟩ | ⟨h1, hres⟩
  · rw [hres, hls, nodesOf_append, nodesOf_append, nodesOf_cons]
    exact List.Sublist.append_left (List.sublist_append_right _ _) _
  · rw [hres, hls, nodesOf_append, nodesOf_append, nodesOf_cons, nodesOf_cons]
    apply List.Sublist.append_left
    apply List.Sublist.append_right
    simp only [nodesOfLevel, hes, List.map_append, List.map_cons]
    exact List.Sublist.append_left (List.sublist_cons_self _ _) _

theorem ladderAfterErase_pairwise (R : Int → Int → Bool) (lvp : Int) (nd qty : Nat)
    (pl : PriceLevelNode) (ls : List PriceLevelNode) (as bs : List PriceLevelNode)
    (es1 es2 : List Entry) (e : Entry) (hls : ls = as ++ pl :: bs)
    (hnm : ∀ a ∈ as, (a.price == lvp) = false) (hpp : pl.price = lvp)
    (hes : pl.orders = es1 ++ e :: es2)
    (hnn : ∀ a ∈ es1, (a.node == nd) = false) (hen : e.node = nd)
    (hs : ls.Pairwise (fun x y => R x.price y.price = true)) :
    (ladderAfterErase lvp nd qty pl ls).Pairwise (fun x y => R x.price y.price = true) := by
  rcases ladderAfterErase_cases lvp nd qty pl ls as bs es1 es2 e hls hnm hpp hes hnn hen
    with ⟨h1, h2, hres⟩ | ⟨h1, hres⟩
  · rw [hres]
    rw [hls] at hs
    have hsub : List.Sublist (as ++ bs) (as ++ pl :: bs) :=
      List.Sublist.append_left (List.sublist_cons_self _ _) _
    exact hs.sublist hsub
  · rw [hres]
    rw [hls] at hs
    exact pairwise_price_replace R as bs pl _ rfl hs

/-- Every entry surviving at the erased order's price, other than the
erased node itself, is still reachable through the map find. -/
theorem ladderAfterErase_regsame (lvp : Int) (nd qty : Nat) (pl : PriceLevelNode)
    (ls : List PriceLevelNode) (as bs : List PriceLevelNode) (es1 es2 : List Entry)
    (e : Entry) (hls : ls = as ++ pl :: bs)
    (hnm : ∀ a ∈ as, (a.price == lvp) = false) (hpp : pl.price = lvp)
    (hes : pl.orders = es1 ++ e :: es2)
    (hnn : ∀ a ∈ es1, (a.node == nd) = false) (hen : e.node = nd)
    (e2 : Entry) (he2 : e2 ∈ pl.orders) (hne : e2 ≠ e) :
    ∃ pl2, findLevel (ladderAfterErase lvp nd qty pl ls) lvp = some pl2 ∧
      e2 ∈ pl2.orders := by
  have he2m : e2 ∈ es1 ++ es2 := by
    rw [hes] at he2
    rcases List.mem_append.mp he2 with h | h
    · exact List.mem_append.mpr (Or.inl h)
    · rcases List.mem_cons.mp h with h2 | h2
      · exact absurd h2 hne
      · exact List.mem_append.mpr (Or.inr h2)
  rcases ladderAfterErase_cases lvp nd qty pl ls as bs es1 es2 e hls hnm hpp hes hnn hen
    with ⟨h1, h2, hres⟩ | ⟨h1, hres⟩
  · rw [h1, h2] at he2m
    simp at he2m
  · refine ⟨⟨pl.price, clampSub pl.total_quantity qty, es1 ++ es2⟩, ?_, he2m⟩
    rw [hres]
    exact findLevel_append_cons_self as bs _ lvp hnm hpp

/-- The removal performed by cancel_order (and by the price-change branch
of amend_order) preserves well-formedness. -/
theorem Inv_eraseBook (oid : Nat) (lv : LookupValue) (pl : PriceLevelNode) (e : Entry)
    (b : OrderBook) (hi : Inv b)
    (hlk : lookupGet b.order_lookup oid = some lv)
    (hfl : findLevel (sideOf b lv.is_buy) lv.price = some pl)
    (hfn : findNode lv.node pl.orders = some e) :
    Inv (eraseBook oid lv pl e b) := by
  obtain ⟨as, bs, hls, hnm, hpp⟩ := findLevel_split _ _ _ hfl
  obtain ⟨es1, es2, hes, hnn, hen⟩ := findNode_split _ _ _ hfn
  have hpl_mem : pl ∈ sideOf b lv.is_buy := by rw [hls]; simp
  have hem : e ∈ pl.orders := by rw [hes]; simp
  have heid : e.ord.order_id = oid := by
    obtain ⟨plr, hfr, er, hmr, hnr, hir⟩ := hi.reg oid lv hlk
    rw [hfl] at hfr
    have hplr : plr = pl := by injection hfr.symm
    rw [hplr] at hmr
    have her : er = e :=
      eq_of_node_eq pl.orders er e (level_nodup b hi lv.is_buy pl hpl_mem) hmr hem
        (by rw [hnr, hen])
    rw [← her]
    exact hir
  cases hlb : lv.is_buy with
  | true =>
    have hlsb : b.bids = as ++ pl :: bs := by
      rw [hlb] at hls
      simpa [sideOf] using hls
    have hflb : findLevel b.bids lv.price = some pl := by
      rw [hlb] at hfl
      simpa [sideOf] using hfl
    have hres : eraseBook oid lv pl e b =
        { b with
          bids := ladderAfterErase lv.price lv.node e.ord.quantity pl b.bids,
          order_lookup := lookupErase b.order_lookup oid } := by
      simp [eraseBook, sideOf, hlb]
    rw [hres]
    have hsub : List.Sublist
        (nodesOf (ladderAfterErase lv.price lv.node e.ord.quantity pl b.bids))
        (nodesOf b.bids) :=
      ladderAfterErase_sublist lv.price lv.node e.ord.quantity pl b.bids as bs es1 es2 e
        hlsb hnm hpp hes hnn hen
    have hsubAll : List.Sublist (nodesOf (ladderAfterErase lv.price lv.node
        e.ord.quantity pl b.bids) ++ nodesOf b.asks) (allNodes b) :=
      List.Sublist.append hsub (List.Sublist.refl _)
    have hmem := ladderAfterErase_mem lv.price lv.node e.ord.quantity pl b.bids as bs
      es1 es2 e hlsb hnm hpp hes hnn hen
    refine ⟨?_, ?_, ?_, ?_, ?_, ?_, ?_, ?_, ?_⟩
    · intro n hn
      exact hi.fresh n (hsubAll.subset hn)
    · exact hsubAll.nodup hi.nodup
    · exact ladderAfterErase_pairwise bidBefore lv.price lv.node e.ord.quantity pl
        b.bids as bs es1 es2 e hlsb hnm hpp hes hnn hen hi.bidsSorted
    · exact hi.asksSorted
    · intro l2 hl2
      rcases hmem l2 hl2 with h | ⟨h, hne⟩
      · exact hi.bidsNE l2 h
      · rw [h]
        simpa using hne
    · exact hi.asksNE
    · intro l2 hl2 x hx
      rcases hmem l2 hl2 with h | ⟨h, hne⟩
      · exact hi.bidsSide l2 h x hx
      · rw [h] at hx
        simp only at hx
        have hxp : x ∈ pl.orders := by
          rw [hes]
          rcases List.mem_append.mp hx with h2 | h2
          · simp [h2]
          · simp [h2]
        exact hi.bidsSide pl (by rw [hlsb]; simp) x hxp
    · exact hi.asksSide
    · intro k lv2 hk2
      by_cases hko : k = oid
      · rw [hko, lookupGet_erase_self] at hk2
        cases hk2
      · rw [lookupGet_erase_ne _ _ _ hko] at hk2
        obtain ⟨pl2, hf2, e2, hm2, hn2, hi2⟩ := hi.reg k lv2 hk2
        cases hlb2 : lv2.is_buy with
        | false =>
          rw [hlb2] at hf2
          simp only [sideOf, Bool.false_eq_true, if_false] at hf2 ⊢
          exact ⟨pl2, hf2, e2, hm2, hn2, hi2⟩
        | true =>
          rw [hlb2] at hf2
          simp only [sideOf, if_true] at hf2 ⊢
          by_cases hp2 : lv2.price = lv.price
          · rw [hp2] at hf2
            have hpl2 : pl2 = pl := by
              rw [hflb] at hf2
              injection hf2.symm
            rw [hpl2] at hm2
            have hne2 : e2 ≠ e := by
              intro hcon
              rw [hcon, heid] at hi2
              exact hko hi2.symm
            obtain ⟨pl3, hf3, hm3⟩ := ladderAfterErase_regsame lv.price lv.node
              e.ord.quantity pl b.bids as bs es1 es2 e hlsb hnm hpp hes hnn hen
              e2 hm2 hne2
            refine ⟨pl3, ?_, e2, hm3, hn2, hi2⟩
            rw [hp2]
            exact hf3
          · refine ⟨pl2, ?_, e2, hm2, hn2, hi2⟩
            rw [findLevel_ladderAfterErase_ne lv.price lv2.price lv.node
              e.ord.quantity pl b.bids hpp hp2]
            exact hf2
  | false =>
    have hlsb : b.asks = as ++ pl :: bs := by
      rw [hlb] at hls
      simpa [sideOf] using hls
    have hflb : findLevel b.asks lv.price = some pl := by
      rw [hlb] at hfl
      simpa [sideOf] using hfl
    have hres : eraseBook oid lv pl e b =
        { b with
          asks := ladderAfterErase lv.price lv.node e.ord.quantity pl b.asks,
          order_lookup := lookupErase b.order_lookup oid } := by
      simp [eraseBook, sideOf, hlb]
    rw [hres]
    have hsub : List.Sublist
        (nodesOf (ladderAfterErase lv.price lv.node e.ord.quantity pl b.asks))
        (nodesOf b.asks) :=
      ladderAfterErase_sublist lv.price lv.node e.ord.quantity pl b.asks as bs es1 es2 e
        hlsb hnm hpp hes hnn hen
    have hsubAll : List.Sublist (nodesOf b.bids ++ nodesOf (ladderAfterErase lv.price
        lv.node e.ord.quantity pl b.asks)) (allNodes b) :=
      List.Sublist.append (List.Sublist.refl _) hsub
    have hmem := ladderAfterErase_mem lv.price lv.node e.ord.quantity pl b.asks as bs
      es1 es2 e hlsb hnm hpp hes hnn hen
    refine ⟨?_, ?_, ?_, ?_, ?_, ?_, ?_, ?_, ?_⟩
    · intro n hn
      exact hi.fresh n (hsubAll.subset hn)
    · exact hsubAll.nodup hi.nodup
    · exact hi.bidsSorted
    · exact ladderAfterErase_pairwise askBefore lv.price lv.node e.ord.quantity pl
        b.asks as bs es1 es2 e hlsb hnm hpp hes hnn hen hi.asksSorted
    · exact hi.bidsNE
    · intro l2 hl2
      rcases hmem l2 hl2 with h | ⟨h, hne⟩
      · exact hi.asksNE l2 h
      · rw [h]
        simpa using hne
    · exact hi.bidsSide
    · intro l2 hl2 x hx
      rcases hmem l2 hl2 with h | ⟨h, hne⟩
      · exact hi.asksSide l2 h x hx
      · rw [h] at hx
        simp only at hx
        have hxp : x ∈ pl.orders := by
          rw [hes]
          rcases List.mem_append.mp hx with h2 | h2
          · simp [h2]
          · simp [h2]
        exact hi.asksSide pl (by rw [hlsb]; simp) x hxp
    · intro k lv2 hk2
      by_cases hko : k = oid
      · rw [hko, lookupGet_erase_self] at hk2
        cases hk2
      · rw [lookupGet_erase_ne _ _ _ hko] at hk2
        obtain ⟨pl2, hf2, e2, hm2, hn2, hi2⟩ := hi.reg k lv2 hk2
        cases hlb2 : lv2.is_buy with
        | true =>
          rw [hlb2] at hf2
          simp only [sideOf, if_true] at hf2 ⊢
          exact ⟨pl2, hf2, e2, hm2, hn2, hi2⟩
        | false =>
          rw [hlb2] at hf2
          simp only [sideOf, Bool.false_eq_true, if_false] at hf2 ⊢
          by_cases hp2 : lv2.price = lv.price
          · rw [hp2] at hf2
            have hpl2 : pl2 = pl := by
              rw [hflb] at hf2
              injection hf2.symm
            rw [hpl2] at hm2
            have hne2 : e2 ≠ e := by
              intro hcon
              rw [hcon, heid] at hi2
              exact hko hi2.symm
            obtain ⟨pl3, hf3, hm3⟩ := ladderAfterErase_regsame lv.price lv.node
              e.ord.quantity pl b.asks as bs es1 es2 e hlsb hnm hpp hes hnn hen
              e2 hm2 hne2
            refine ⟨pl3, ?_, e2, hm3, hn2, hi2⟩
            rw [hp2]
            exact hf3
          · refine ⟨pl2, ?_, e2, hm2, hn2, hi2⟩
            rw [findLevel_ladderAfterErase_ne lv.price lv2.price lv.node
              e.ord.quantity pl b.asks hpp hp2]
            exact hf2

/-- The in-place quantity adjustment of the same-price amend branch
preserves well-formedness. -/
theorem Inv_adjustBook (lv : LookupValue) (pl : PriceLevelNode) (e : Entry)
    (nq : Nat) (b : OrderBook) (hi : Inv b)
    (hfl : findLevel (sideOf b lv.is_buy) lv.price = some pl) :
    Inv (adjustBook lv pl e nq b) := by
  obtain ⟨as, bs, hls, hnm, hpp⟩ := findLevel_split _ _ _ hfl
  have hpl_mem : pl ∈ sideOf b lv.is_buy := by rw [hls]; simp
  set newTotal := if e.ord.quantity < nq then
      (pl.total_quantity + (nq - e.ord.quantity)) % U64
    else wsub64 pl.total_quantity (e.ord.quantity - nq) with hnt
  have hupd : updateLevel lv.price
      (fun _ => ⟨pl.price, newTotal, setQtyAtNode lv.node nq pl.orders⟩)
      (sideOf b lv.is_buy) =
      as ++ ⟨pl.price, newTotal, setQtyAtNode lv.node nq pl.orders⟩ :: bs := by
    rw [hls]
    exact updateLevel_append_cons lv.price _ as bs pl hnm hpp
  have hnodes : nodesOf (as ++ ⟨pl.price, newTotal,
      setQtyAtNode lv.node nq pl.orders⟩ :: bs) = nodesOf (sideOf b lv.is_buy) := by
    rw [hls, nodesOf_append, nodesOf_append, nodesOf_cons, nodesOf_cons]
    simp only [nodesOfLevel, setQtyAtNode_map_node]
  have hNE : setQtyAtNode lv.node nq pl.orders ≠ [] := by
    intro hcon
    have h1 : pl.orders.map (fun x => x.node) = [] := by
      rw [← setQtyAtNode_map_node lv.node nq, hcon]
      rfl
    have h2 : pl.orders = [] := List.map_eq_nil.mp h1
    cases hlb2 : lv.is_buy
    · exact hi.asksNE pl (by rw [hlb2] at hpl_mem; simpa [sideOf] using hpl_mem) h2
    · exact hi.bidsNE pl (by rw [hlb2] at hpl_mem; simpa [sideOf] using hpl_mem) h2
  have hSide : ∀ x ∈ setQtyAtNode lv.node nq pl.orders,
      x.ord.is_buy = e.ord.is_buy → True := fun _ _ _ => trivial
  have hregsame : ∀ e2 ∈ pl.orders, ∃ x ∈ setQtyAtNode lv.node nq pl.orders,
      x.node = e2.node ∧ x.ord.order_id = e2.ord.order_id :=
    fun e2 he2 => exists_setQtyAtNode lv.node nq pl.orders e2 he2
  cases hlb : lv.is_buy with
  | true =>
    have hlsb : sideOf b lv.is_buy = b.bids := by simp [sideOf, hlb]
    have hsd : sideOf b true = b.bids := rfl
    have hres : adjustBook lv pl e nq b =
        { b with
          bids := as ++ ⟨pl.price, newTotal, setQtyAtNode lv.node nq pl.orders⟩ :: bs
          } := by
      simp only [adjustBook, hlb, if_true, ← hnt, hsd]
      rw [← hlsb, hupd]
    rw [hres]
    refine ⟨?_, ?_, ?_, ?_, ?_, ?_, ?_, ?_, ?_⟩
    · intro n hn
      apply hi.fresh
      simp only [allNodes] at hn ⊢
      rwa [hnodes, hlsb] at hn
    · have h := hi.nodup
      simp only [allNodes] at h ⊢
      rwa [hnodes, hlsb]
    · have h := hi.bidsSorted
      rw [← hlsb] at h
      rw [hls] at h
      exact pairwise_price_replace bidBefore as bs pl _ rfl h
    · exact hi.asksSorted
    · intro l2 hl2
      rcases List.mem_append.mp hl2 with h | h
      · exact hi.bidsNE l2 (by rw [← hlsb, hls]; simp [h])
      · rcases List.mem_cons.mp h with h2 | h2
        · rw [h2]
          simpa using hNE
        · exact hi.bidsNE l2 (by rw [← hlsb, hls]; simp [h2])
    · exact hi.asksNE
    · intro l2 hl2 x hx
      rcases List.mem_append.mp hl2 with h | h
      · exact hi.bidsSide l2 (by rw [← hlsb, hls]; simp [h]) x hx
      · rcases List.mem_cons.mp h with h2 | h2
        · rw [h2] at hx
          simp only at hx
          rcases mem_setQtyAtNode _ _ _ _ hx with h3 | ⟨a, ha, h3⟩
          · exact hi.bidsSide pl (by rw [← hlsb]; exact hpl_mem) x h3
          · rw [h3]
            simpa using hi.bidsSide pl (by rw [← hlsb]; exact hpl_mem) a ha
        · exact hi.bidsSide l2 (by rw [← hlsb, hls]; simp [h2]) x hx
    · exact hi.asksSide
    · intro k lv2 hk2
      obtain ⟨pl2, hf2, e2, hm2, hn2, hi2⟩ := hi.reg k lv2 hk2
      cases hlb2 : lv2.is_buy with
      | false =>
        rw [hlb2] at hf2
        simp only [sideOf, Bool.false_eq_true, if_false] at hf2 ⊢
        exact ⟨pl2, hf2, e2, hm2, hn2, hi2⟩
      | true =>
        rw [hlb2] at hf2
        simp only [sideOf, if_true] at hf2 ⊢
        by_cases hp2 : lv2.price = lv.price
        · rw [hp2] at hf2
          have hpl2 : pl2 = pl := by
            rw [← hlsb] at hf2
            simp only [hfl] at hf2
            injection hf2.symm
          rw [hpl2] at hm2
          obtain ⟨x, hxm, hxn, hxi⟩ := hregsame e2 hm2
          refine ⟨⟨pl.price, newTotal, setQtyAtNode lv.node nq pl.orders⟩, ?_, x, hxm,
            by rw [hxn, hn2], by rw [hxi, hi2]⟩
          rw [hp2]
          exact findLevel_append_cons_self as bs _ lv.price hnm hpp
        · refine ⟨pl2, ?_, e2, hm2, hn2, hi2⟩
          have heq : findLevel (as ++ ⟨pl.price, newTotal,
              setQtyAtNode lv.node nq pl.orders⟩ :: bs) lv2.price =
              findLevel b.bids lv2.price := by
            rw [← hupd, hlsb]
            exact findLevel_updateLevel_ne b.bids lv.price lv2.price _
              (fun l hl => by simp [hpp, hl]) hp2
          rw [heq]
          exact hf2
  | false =>
    have hlsb : sideOf b lv.is_buy = b.asks := by simp [sideOf, hlb]
    have hsd : sideOf b false = b.asks := rfl
    have hres : adjustBook lv pl e nq b =
        { b with
          asks := as ++ ⟨pl.price, newTotal, setQtyAtNode lv.node nq pl.orders⟩ :: bs
          } := by
      simp only [adjustBook, hlb, Bool.false_eq_true, if_false, ← hnt, hsd]
      rw [← hlsb, hupd]
    rw [hres]
    refine ⟨?_, ?_, ?_, ?_, ?_, ?_, ?_, ?_, ?_⟩
    · intro n hn
      apply hi.fresh
      simp only [allNodes] at hn ⊢
      rwa [hnodes, hlsb] at hn
    · have h := hi.nodup
      simp only [allNodes] at h ⊢
      rwa [hnodes, hlsb]
    · exact hi.bidsSorted
    · have h := hi.asksSorted
      rw [← hlsb] at h
      rw [hls] at h
      exact pairwise_price_replace askBefore as bs pl _ rfl h
    · exact hi.bidsNE
    · intro l2 hl2
      rcases List.mem_append.mp hl2 with h | h
      · exact hi.asksNE l2 (by rw [← hlsb, hls]; simp [h])
      · rcases List.mem_cons.mp h with h2 | h2
        · rw [h2]
          simpa using hNE
        · exact hi.asksNE l2 (by rw [← hlsb, hls]; simp [h2])
    · exact hi.bidsSide
    · intro l2 hl2 x hx
      rcases List.mem_append.mp hl2 with h | h
      · exact hi.asksSide l2 (by rw [← hlsb, hls]; simp [h]) x hx
      · rcases List.mem_cons.mp h with h2 | h2
        · rw [h2] at hx
          simp only at hx
          rcases mem_setQtyAtNode _ _ _ _ hx with h3 | ⟨a, ha, h3⟩
          · exact hi.asksSide pl (by rw [← hlsb]; exact hpl_mem) x h3
          · rw [h3]
            simpa using hi.asksSide pl (by rw [← hlsb]; exact hpl_mem) a ha
        · exact hi.asksSide l2 (by rw [← hlsb, hls]; simp [h2]) x hx
    · intro k lv2 hk2
      obtain ⟨pl2, hf2, e2, hm2, hn2, hi2⟩ := hi.reg k lv2 hk2
      cases hlb2 : lv2.is_buy with
      | true =>
        rw [hlb2] at hf2
        simp only [sideOf, if_true] at hf2 ⊢
        exact ⟨pl2, hf2, e2, hm2, hn2, hi2⟩
      | false =>
        rw [hlb2] at hf2
        simp only [sideOf, Bool.false_eq_true, if_false] at hf2 ⊢
        by_cases hp2 : lv2.price = lv.price
        · rw [hp2] at hf2
          have hpl2 : pl2 = pl := by
            rw [← hlsb] at hf2
            simp only [hfl] at hf2
            injection hf2.symm
          rw [hpl2] at hm2
          obtain ⟨x, hxm, hxn, hxi⟩ := hregsame e2 hm2
          refine ⟨⟨pl.price, newTotal, setQtyAtNode lv.node nq pl.orders⟩, ?_, x, hxm,
            by rw [hxn, hn2], by rw [hxi, hi2]⟩
          rw [hp2]
          exact findLevel_append_cons_self as bs _ lv.price hnm hpp
        · refine ⟨pl2, ?_, e2, hm2, hn2, hi2⟩
          have heq : findLevel (as ++ ⟨pl.price, newTotal,
              setQtyAtNode lv.node nq pl.orders⟩ :: bs) lv2.price =
              findLevel b.asks lv2.price := by
            rw [← hupd, hlsb]
            exact findLevel_updateLevel_ne b.asks lv.price lv2.price _
              (fun l hl => by simp [hpp, hl]) hp2
          rw [heq]
          exact hf2

theorem Inv_empty : Inv emptyBook := by
  refine ⟨?_, ?_, ?_, ?_, ?_, ?_, ?_, ?_, ?_⟩
  · intro n hn
    simp [allNodes, nodesOf, emptyBook] at hn
  · simp [allNodes, nodesOf, emptyBook]
  · simp [emptyBook]
  · simp [emptyBook]
  · intro l hl
    simp [emptyBook] at hl
  · intro l hl
    simp [emptyBook] at hl
  · intro l hl
    simp [emptyBook] at hl
  · intro l hl
    simp [emptyBook] at hl
  · intro k lv h
    simp [lookupGet, emptyBook] at h

theorem Inv_cancel (oid : Nat) (b : OrderBook) (hi : Inv b) :
    Inv (cancel_order oid b).snd := by
  rcases hlk : lookupGet b.order_lookup oid with _ | lv
  · simpa [cancel_order, hlk] using hi
  · rcases hfl : findLevel (sideOf b lv.is_buy) lv.price with _ | pl
    · simpa [cancel_order, hlk, hfl] using hi
    · rcases hfn : findNode lv.node pl.orders with _ | e
      · simpa [cancel_order, hlk, hfl, hfn] using hi
      · simpa [cancel_order, hlk, hfl, hfn] using
          Inv_eraseBook oid lv pl e b hi hlk hfl hfn

theorem Inv_amend (oid : Nat) (np : Int) (nq : Nat) (b : OrderBook) (hi : Inv b) :
    Inv (amend_order oid np nq b).snd := by
  rcases hlk : lookupGet b.order_lookup oid with _ | lv
  · simpa [amend_order, hlk] using hi
  · rcases hfl : findLevel (sideOf b lv.is_buy) lv.price with _ | pl
    · simpa [amend_order, hlk, hfl] using hi
    · rcases hfn : findNode lv.node pl.orders with _ | e
      · simpa [amend_order, hlk, hfl, hfn] using hi
      · by_cases hp : np ≠ pl.price
        · have h1 := Inv_eraseBook oid lv pl e b hi hlk hfl hfn
          have h2 := Inv_add { e.ord with price := np, quantity := nq } _ h1
          simpa [amend_order, hlk, hfl, hfn, hp] using h2
        · by_cases hq : nq = e.ord.quantity
          · simpa [amend_order, hlk, hfl, hfn, hp, hq] using hi
          · have h1 := Inv_adjustBook lv pl e nq b hi hfl
            simpa [amend_order, hlk, hfl, hfn, hp, hq] using h1

/-- Every reachable book state is well-formed. -/
theorem Reachable_Inv (b : OrderBook) (hb : Reachable b) : Inv b := by
  induction hb with
  | empty => exact Inv_empty
  | add o b hq hb ih => exact Inv_add o b ih
  | cancel oid b hb ih => exact Inv_cancel oid b ih
  | amend oid p q b hq hb ih => exact Inv_amend oid p q b ih

/- ### The aggregate invariant -/

theorem U64_pos : 0 < U64 := by simp [U64]

theorem Agg_ladderAdd (before : Int → Int → Bool) (nd : Nat) (o : Order)
    (ls : List PriceLevelNode)
    (hagg : ∀ l ∈ ls, l.total_quantity = sumQ l.orders)
    (hbound : ∀ l ∈ ladderAdd before nd o ls, sumQ l.orders < U64) :
    ∀ l ∈ ladderAdd before nd o ls, l.total_quantity = sumQ l.orders := by
  intro l hl
  rcases mem_ladderAdd before nd o ls l hl with h | ⟨l2, hl2, hp2, he2⟩ | h
  · exact hagg l h
  · have hs : sumQ l.orders = sumQ l2.orders + o.quantity := by
      rw [he2]
      simp [sumQ_append, sumQ_cons, sumQ_nil]
    have hb : sumQ l2.orders + o.quantity < U64 := by
      rw [← hs]
      exact hbound l hl
    have hsum : sumQ (l2.orders ++ [⟨nd, o⟩]) = sumQ l2.orders + o.quantity := by
      simp [sumQ_append, sumQ_cons, sumQ_nil]
    rw [he2]
    simp only
    rw [hsum, hagg l2 hl2]
    exact Nat.mod_eq_of_lt hb
  · rw [h]
    simp [sumQ_cons, sumQ_nil]

theorem Agg_ladderAfterErase (lvp : Int) (pl : PriceLevelNode)
    (ls : List PriceLevelNode) (as bs : List PriceLevelNode) (es1 es2 : List Entry)
    (e : Entry) (hls : ls = as ++ pl :: bs)
    (hnm : ∀ a ∈ as, (a.price == lvp) = false) (hpp : pl.price = lvp)
    (hes : pl.orders = es1 ++ e :: es2)
    (hnn : ∀ a ∈ es1, (a.node == e.node) = false)
    (hagg : ∀ l ∈ ls, l.total_quantity = sumQ l.orders) :
    ∀ l ∈ ladderAfterErase lvp e.node e.ord.quantity pl ls,
      l.total_quantity = sumQ l.orders := by
  intro l hl
  rcases ladderAfterErase_mem lvp e.node e.ord.quantity pl ls as bs es1 es2 e hls hnm
    hpp hes hnn rfl l hl with h | ⟨h, hne⟩
  · exact hagg l h
  · have hplagg : pl.total_quantity = sumQ es1 + (e.ord.quantity + sumQ es2) := by
      rw [hagg pl (by rw [hls]; simp), hes]
      simp [sumQ_append, sumQ_cons]
    rw [h]
    simp only [clampSub]
    rw [if_pos (by omega), hplagg]
    simp [sumQ_append]
    omega

theorem Agg_eraseBook (oid : Nat) (lv : LookupValue) (pl : PriceLevelNode) (e : Entry)
    (b : OrderBook)
    (hfl : findLevel (sideOf b lv.is_buy) lv.price = some pl)
    (hfn : findNode lv.node pl.orders = some e)
    (h : AggInv b) : AggInv (eraseBook oid lv pl e b) := by
  obtain ⟨as, bs, hls, hnm, hpp⟩ := findLevel_split _ _ _ hfl
  obtain ⟨es1, es2, hes, hnn, hen⟩ := findNode_split _ _ _ hfn
  have hsideagg : ∀ l ∈ sideOf b lv.is_buy, l.total_quantity = sumQ l.orders := by
    cases hlb : lv.is_buy
    · simpa [sideOf] using h.2
    · simpa [sideOf] using h.1
  have hlad : ∀ l ∈ ladderAfterErase lv.price lv.node e.ord.quantity pl
      (sideOf b lv.is_buy), l.total_quantity = sumQ l.orders := by
    rw [← hen]
    exact Agg_ladderAfterErase lv.price pl (sideOf b lv.is_buy) as bs es1 es2 e hls hnm
      hpp hes (by rw [hen]; exact hnn) hsideagg
  cases hlb : lv.is_buy with
  | true =>
    have hsd : sideOf b lv.is_buy = b.bids := by simp [sideOf, hlb]
    have hres : eraseBook oid lv pl e b =
        { b with
          bids := ladderAfterErase lv.price lv.node e.ord.quantity pl b.bids,
          order_lookup := lookupErase b.order_lookup oid } := by
      simp [eraseBook, sideOf, hlb]
    rw [hres]
    refine ⟨?_, h.2⟩
    intro l hl
    apply hlad
    rwa [hsd]
  | false =>
    have hsd : sideOf b lv.is_buy = b.asks := by simp [sideOf, hlb]
    have hres : eraseBook oid lv pl e b =
        { b with
          asks := ladderAfterErase lv.price lv.node e.ord.quantity pl b.asks,
          order_lookup := lookupErase b.order_lookup oid } := by
      simp [eraseBook, sideOf, hlb]
    rw [hres]
    refine ⟨h.1, ?_⟩
    intro l hl
    apply hlad
    rwa [hsd]

theorem Agg_add (o : Order) (b : OrderBook) (h : AggInv b)
    (hs : SumsBounded (add_order o b)) : AggInv (add_order o b) := by
  by_cases hq : o.quantity = 0
  · simpa [add_order, hq] using h
  · cases hb : o.is_buy with
    | true =>
      have hres : add_order o b =
          { b with
            bids := ladderAdd bidBefore b.next_node o b.bids,
            order_lookup := lookupSet b.order_lookup o.order_id
              ⟨o.is_buy, o.price, b.next_node⟩,
            next_node := b.next_node + 1 } := by
        simp [add_order, hq, hb]
      rw [hres] at hs ⊢
      exact ⟨Agg_ladderAdd bidBefore b.next_node o b.bids h.1 hs.1, h.2⟩
    | false =>
      have hres : add_order o b =
          { b with
            asks := ladderAdd askBefore b.next_node o b.asks,
            order_lookup := lookupSet b.order_lookup o.order_id
              ⟨o.is_buy, o.price, b.next_node⟩,
            next_node := b.next_node + 1 } := by
        simp [add_order, hq, hb]
      rw [hres] at hs ⊢
      exact ⟨h.1, Agg_ladderAdd askBefore b.next_node o b.asks h.2 hs.2⟩

theorem Agg_cancel (oid : Nat) (b : OrderBook) (h : AggInv b) :
    AggInv (cancel_order oid b).snd := by
  rcases hlk : lookupGet b.order_lookup oid with _ | lv
  · simpa [cancel_order, hlk] using h
  · rcases hfl : findLevel (sideOf b lv.is_buy) lv.price with _ | pl
    · simpa [cancel_order, hlk, hfl] using h
    · rcases hfn : findNode lv.node pl.orders with _ | e
      · simpa [cancel_order, hlk, hfl, hfn] using h
      · simpa [cancel_order, hlk, hfl, hfn] using
          Agg_eraseBook oid lv pl e b hfl hfn h

theorem Agg_adjustBook (lv : LookupValue) (pl : PriceLevelNode) (e : Entry)
    (nq : Nat) (b : OrderBook) (h : AggInv b) (hpre : SumsBounded b)
    (hfl : findLevel (sideOf b lv.is_buy) lv.price = some pl)
    (hfn : findNode lv.node pl.orders = some e)
    (hs : SumsBounded (adjustBook lv pl e nq b)) :
    AggInv (adjustBook lv pl e nq b) := by
  obtain ⟨as, bs, hls, hnm, hpp⟩ := findLevel_split _ _ _ hfl
  obtain ⟨es1, es2, hes, hnn, hen⟩ := findNode_split _ _ _ hfn
  have hset : setQtyAtNode lv.node nq pl.orders =
      es1 ++ { e with ord := { e.ord with quantity := nq } } :: es2 := by
    rw [hes]
    exact setQtyAtNode_append_cons lv.node nq es1 es2 e hnn hen
  set newTotal := if e.ord.quantity < nq then
      (pl.total_quantity + (nq - e.ord.quantity)) % U64
    else wsub64 pl.total_quantity (e.ord.quantity - nq) with hnt
  have hupd : updateLevel lv.price
      (fun _ => ⟨pl.price, newTotal, setQtyAtNode lv.node nq pl.orders⟩)
      (sideOf b lv.is_buy) =
      as ++ ⟨pl.price, newTotal, setQtyAtNode lv.node nq pl.orders⟩ :: bs := by
    rw [hls]
    exact updateLevel_append_cons lv.price _ as bs pl hnm hpp
  have hsideagg : ∀ l ∈ sideOf b lv.is_buy, l.total_quantity = sumQ l.orders := by
    cases hlb : lv.is_buy
    · simpa [sideOf] using h.2
    · simpa [sideOf] using h.1
  have hsidebnd : ∀ l ∈ sideOf b lv.is_buy, sumQ l.orders < U64 := by
    cases hlb : lv.is_buy
    · simpa [sideOf] using hpre.2
    · simpa [sideOf] using hpre.1
  have hplagg : pl.total_quantity = sumQ es1 + (e.ord.quantity + sumQ es2) := by
    rw [hsideagg pl (by rw [hls]; simp), hes]
    simp [sumQ_append, sumQ_cons]
  have hplbnd : sumQ es1 + (e.ord.quantity + sumQ es2) < U64 := by
    have := hsidebnd pl (by rw [hls]; simp)
    rw [hes] at this
    simpa [sumQ_append, sumQ_cons] using this
  have hnew : ∀ l ∈ as ++ ⟨pl.price, newTotal,
      setQtyAtNode lv.node nq pl.orders⟩ :: bs,
      sumQ l.orders < U64 →
      l.total_quantity = sumQ l.orders := by
    intro l hl hbnd
    rcases List.mem_append.mp hl with hmem | hmem
    · exact hsideagg l (by rw [hls]; simp [hmem])
    · rcases List.mem_cons.mp hmem with hmem2 | hmem2
      · rw [hmem2]
        rw [hmem2] at hbnd
        simp only [hset, sumQ_append, sumQ_cons] at hbnd ⊢
        rw [hnt, hplagg]
        by_cases hlt : e.ord.quantity < nq
        · rw [if_pos hlt]
          rw [Nat.mod_eq_of_lt (by omega)]
          omega
        · rw [if_neg hlt, wsub64]
          have harith : sumQ es1 + (e.ord.quantity + sumQ es2) +
              (U64 - (e.ord.quantity - nq)) =
              (sumQ es1 + (nq + sumQ es2)) + U64 := by omega
          rw [harith, Nat.add_mod_right, Nat.mod_eq_of_lt (by omega)]
      · exact hsideagg l (by rw [hls]; simp [hmem2])
  cases hlb : lv.is_buy with
  | true =>
    have hsd : sideOf b true = b.bids := rfl
    have hres : adjustBook lv pl e nq b =
        { b with
          bids := as ++ ⟨pl.price, newTotal, setQtyAtNode lv.node nq pl.orders⟩ :: bs
          } := by
      simp only [adjustBook, hlb, if_true, ← hnt, hsd]
      rw [← show sideOf b lv.is_buy = b.bids from by simp [sideOf, hlb], hupd]
    rw [hres] at hs ⊢
    exact ⟨fun l hl => hnew l hl (hs.1 l hl), h.2⟩
  | false =>
    have hsd : sideOf b false = b.asks := rfl
    have hres : adjustBook lv pl e nq b =
        { b with
          asks := as ++ ⟨pl.price, newTotal, setQtyAtNode lv.node nq pl.orders⟩ :: bs
          } := by
      simp only [adjustBook, hlb, Bool.false_eq_true, if_false, ← hnt, hsd]
      rw [← show sideOf b lv.is_buy = b.asks from by simp [sideOf, hlb], hupd]
    rw [hres] at hs ⊢
    exact ⟨h.1, fun l hl => hnew l hl (hs.2 l hl)⟩

theorem Agg_amend (oid : Nat) (np : Int) (nq : Nat) (b : OrderBook) (h : AggInv b)
    (hpre : SumsBounded b) (hs : SumsBounded (amend_order oid np nq b).snd) :
    AggInv (amend_order oid np nq b).snd := by
  rcases hlk : lookupGet b.order_lookup oid with _ | lv
  · simpa [amend_order, hlk] using h
  · rcases hfl : findLevel (sideOf b lv.is_buy) lv.price with _ | pl
    · simpa [amend_order, hlk, hfl] using h
    · rcases hfn : findNode lv.node pl.orders with _ | e
      · simpa [amend_order, hlk, hfl, hfn] using h
      · by_cases hp : np ≠ pl.price
        · have h1 := Agg_eraseBook oid lv pl e b hfl hfn h
          have hs2 : SumsBounded (add_order { e.ord with price := np, quantity := nq }
              (eraseBook oid lv pl e b)) := by
            have heq : (amend_order oid np nq b).snd =
                add_order { e.ord with price := np, quantity := nq }
                  (eraseBook oid lv pl e b) := by
              simp [amend_order, hlk, hfl, hfn, hp]
            rwa [heq] at hs
          have h2 := Agg_add _ _ h1 hs2
          simpa [amend_order, hlk, hfl, hfn, hp] using h2
        · by_cases hq : nq = e.ord.quantity
          · simpa [amend_order, hlk, hfl, hfn, hp, hq] using h
          · have hs2 : SumsBounded (adjustBook lv pl e nq b) := by
              have heq : (amend_order oid np nq b).snd = adjustBook lv pl e nq b := by
                simp [amend_order, hlk, hfl, hfn, hp, hq]
              rwa [heq] at hs
            have h1 := Agg_adjustBook lv pl e nq b h hpre hfl hfn hs2
            simpa [amend_order, hlk, hfl, hfn, hp, hq] using h1

theorem SumsBounded_empty : SumsBounded emptyBook := by
  constructor
  · intro l hl
    simp [emptyBook] at hl
  · intro l hl
    simp [emptyBook] at hl

theorem AggInv_empty : AggInv emptyBook := by
  constructor
  · intro l hl
    simp [emptyBook] at hl
  · intro l hl
    simp [emptyBook] at hl

/-- On overflow-free traces both the aggregate invariant and the sum
bound hold in every reachable state. -/
theorem ReachableNoOv_Agg (b : OrderBook) (hb : ReachableNoOv b) :
    AggInv b ∧ SumsBounded b := by
  induction hb with
  | empty => exact ⟨AggInv_empty, SumsBounded_empty⟩
  | add o b hq hb hs ih => exact ⟨Agg_add o b ih.1 hs, hs⟩
  | cancel oid b hb hs ih => exact ⟨Agg_cancel oid b ih.1, hs⟩
  | amend oid p q b hq hb hs ih => exact ⟨Agg_amend oid p q b ih.1 ih.2 hs, hs⟩

/- ### Characterizations of the operations at located orders -/

theorem cancel_none_eq (oid : Nat) (b : OrderBook)
    (h : lookupGet b.order_lookup oid = none) : cancel_order oid b = (false, b) := by
  simp [cancel_order, h]

theorem cancel_eq (oid : Nat) (lv : LookupValue) (pl : PriceLevelNode) (e : Entry)
    (b : OrderBook) (hlk : lookupGet b.order_lookup oid = some lv)
    (hfl : findLevel (sideOf b lv.is_buy) lv.price = some pl)
    (hfn : findNode lv.node pl.orders = some e) :
    cancel_order oid b = (true, eraseBook oid lv pl e b) := by
  simp [cancel_order, hlk, hfl, hfn]

theorem amend_none_eq (oid : Nat) (np : Int) (nq : Nat) (b : OrderBook)
    (h : lookupGet b.order_lookup oid = none) :
    amend_order oid np nq b = (false, b) := by
  simp [amend_order, h]

theorem amend_price_eq (oid : Nat) (np : Int) (nq : Nat) (lv : LookupValue)
    (pl : PriceLevelNode) (e : Entry) (b : OrderBook)
    (hlk : lookupGet b.order_lookup oid = some lv)
    (hfl : findLevel (sideOf b lv.is_buy) lv.price = some pl)
    (hfn : findNode lv.node pl.orders = some e) (hp : np ≠ pl.price) :
    amend_order oid np nq b = (true, add_order
      { e.ord with price := np, quantity := nq } (eraseBook oid lv pl e b)) := by
  simp [amend_order, hlk, hfl, hfn, hp]

theorem amend_same_eq (oid : Nat) (nq : Nat) (lv : LookupValue)
    (pl : PriceLevelNode) (e : Entry) (b : OrderBook)
    (hlk : lookupGet b.order_lookup oid = some lv)
    (hfl : findLevel (sideOf b lv.is_buy) lv.price = some pl)
    (hfn : findNode lv.node pl.orders = some e) (hq : nq ≠ e.ord.quantity) :
    amend_order oid pl.price nq b = (true, adjustBook lv pl e nq b) := by
  simp [amend_order, hlk, hfl, hfn, hq]

theorem amend_noop_eq (oid : Nat) (lv : LookupValue)
    (pl : PriceLevelNode) (e : Entry) (b : OrderBook)
    (hlk : lookupGet b.order_lookup oid = some lv)
    (hfl : findLevel (sideOf b lv.is_buy) lv.price = some pl)
    (hfn : findNode lv.node pl.orders = some e) :
    amend_order oid pl.price e.ord.quantity b = (true, b) := by
  simp [amend_order, hlk, hfl, hfn]

theorem findNode_of_mem_nodup (es : List Entry) (e : Entry) (nd : Nat)
    (h : (es.map (fun x => x.node)).Nodup) (hm : e ∈ es) (hn : e.node = nd) :
    findNode nd es = some e := by
  induction es with
  | nil => simp at hm
  | cons a es ih =>
    simp only [List.map_cons, List.nodup_cons] at h
    rcases List.mem_cons.mp hm with h1 | h1
    · rw [← h1]
      simp [findNode, List.find?_cons, hn]
    · have hna : (a.node == nd) = false := by
        have : a.node ≠ nd := by
          intro hcon
          apply h.1
          rw [hcon, ← hn]
          exact List.mem_map.mpr ⟨e, h1, rfl⟩
        simpa using this
      have := ih h.2 h1
      simpa [findNode, List.find?_cons, hna] using this

/-- In a well-formed book every registered id dereferences: the map find
and the stored list iterator both succeed, and the located order carries
the registered id. -/
theorem located_of_lookup (b : OrderBook) (oid : Nat) (lv : LookupValue)
    (hi : Inv b) (hlk : lookupGet b.order_lookup oid = some lv) :
    ∃ pl e, findLevel (sideOf b lv.is_buy) lv.price = some pl ∧
      findNode lv.node pl.orders = some e ∧ e.node = lv.node ∧
      e.ord.order_id = oid ∧ e ∈ pl.orders := by
  obtain ⟨pl, hf, e, hm, hn, hid⟩ := hi.reg oid lv hlk
  have hpl_mem : pl ∈ sideOf b lv.is_buy := by
    obtain ⟨as, bs, hls, _, _⟩ := findLevel_split _ _ _ hf
    rw [hls]
    simp
  have hfind : findNode lv.node pl.orders = some e :=
    findNode_of_mem_nodup pl.orders e lv.node (level_nodup b hi lv.is_buy pl hpl_mem)
      hm hn
  exact ⟨pl, e, hf, hfind, hn, hid, hm⟩

instance (b : OrderBook) : Decidable (SumsBounded b) := by
  unfold SumsBounded
  infer_instance

instance (b : OrderBook) : Decidable (AggInv b) := by
  unfold AggInv
  infer_instance

/- ### Concrete scenario books (spec section 8) -/

def oA1 : Order := ⟨1, true, 100, 500, 0⟩

def oA2 : Order := ⟨2, true, 101, 200, 1⟩

def oA5 : Order := ⟨5, true, 101, 100, 2⟩

/-- The Scenario A book: buy orders id 1 at 100 x 500, id 2 at 101 x 200,
id 5 at 101 x 100, inserted in that order. -/
def bookA : OrderBook := add_order oA5 (add_order oA2 (add_order oA1 emptyBook))

theorem bookA_reachable : Reachable bookA :=
  Reachable.add oA5 _ (by decide)
    (Reachable.add oA2 _ (by decide)
      (Reachable.add oA1 _ (by decide) Reachable.empty))

theorem bookA_noov : ReachableNoOv bookA :=
  ReachableNoOv.add oA5 _ (by decide)
    (ReachableNoOv.add oA2 _ (by decide)
      (ReachableNoOv.add oA1 _ (by decide) ReachableNoOv.empty (by decide))
      (by decide))
    (by decide)

/-- A book holding the single bid id 1 at 100 x 500. -/
def bookT : OrderBook := add_order ⟨1, true, 100, 500, 0⟩ emptyBook

theorem bookT_reachable : Reachable bookT :=
  Reachable.add _ _ (by decide) Reachable.empty

/-- bookT after amend_order(1, 100, 0): the same-price branch zeroes the
quantity in place. -/
def bookTz : OrderBook := (amend_order 1 100 0 bookT).snd

theorem bookTz_reachable : Reachable bookTz :=
  Reachable.amend 1 100 0 bookT (by decide) bookT_reachable

def o7 : Order := ⟨7, true, 102, 50, 5⟩

/-- A book with a resting bid level at 102 (id 7) and the bid id 1 at 100. -/
def book5 : OrderBook := add_order ⟨1, true, 100, 500, 0⟩ (add_order o7 emptyBook)

def o61 : Order := ⟨1, true, 100, 500, 7⟩

def o62 : Order := ⟨2, true, 102, 10, 8⟩

/-- Bids id 1 at 100 (timestamp 7) and id 2 at 102 (timestamp 8). -/
def book6 : OrderBook := add_order o62 (add_order o61 emptyBook)

theorem book6_reachable : Reachable book6 :=
  Reachable.add o62 _ (by decide) (Reachable.add o61 _ (by decide) Reachable.empty)

def oOv1 : Order := ⟨1, true, 100, 2 ^ 63, 0⟩

def oOv2 : Order := ⟨2, true, 100, 2 ^ 63, 1⟩

/-- Two bids of 2^63 each at price 100: their sum is exactly 2^64, so the
uint64_t aggregate of the 100 level wraps to 0. -/
def bookOv : OrderBook := add_order oOv2 (add_order oOv1 emptyBook)

theorem bookOv_reachable : Reachable bookOv :=
  Reachable.add oOv2 _ (by decide) (Reachable.add oOv1 _ (by decide) Reachable.empty)

/- ### Claim C1 -/

/-- C1, as stated, is false on the code: the aggregate is a uint64_t and
wraps.  In the reachable book bookOv (two bids of 2^63 at price 100) the
100 level stores aggregate 0 while the sum of the remaining quantities of
its FIFO members is 2^64. -/
theorem C1_counterexample :
    Reachable bookOv ∧ ¬ AggInv bookOv ∧
    findLevel bookOv.bids 100 = some ⟨100, 0, [⟨0, oOv1⟩, ⟨1, oOv2⟩]⟩ ∧
    sumQ [⟨0, oOv1⟩, ⟨1, oOv2⟩] = 2 ^ 64 :=
  ⟨bookOv_reachable, by decide, by decide, by decide⟩

/-- C1 (amended): for every book state reachable by a sequence of
operations in which every operation leaves every level's sum of
remaining quantities below 2^64 (so the uint64_t aggregate counters
never overflow), every price level present in either ladder has its
aggregate quantity equal to the sum of the remaining quantities of the
orders in its FIFO queue. -/
theorem C1_aggregate_invariant (b : OrderBook) (hb : ReachableNoOv b) : AggInv b :=
  (ReachableNoOv_Agg b hb).1

theorem C1_aggregate_invariant_witness : ReachableNoOv bookA ∧ AggInv bookA :=
  ⟨bookA_noov, C1_aggregate_invariant bookA bookA_noov⟩

/- ### Claim C2 -/

def oC2 : Order := ⟨1, true, 100, 500, 0⟩

def oC2neg : Order := ⟨2, true, -5, 10, 0⟩

/-- C2: the code evaluated at the failing inputs.  add_order returns void
and performs no validation: inserting the live id 1 a second time appends
a second copy to the 100 level (aggregate becomes 1000) and silently
overwrites the registry entry to point at the new copy (node 1), orphaning
the first; an order with negative price -5 is accepted and creates a
level.  The claim's rejection with InvalidOrder and absence of mutation do
not happen. -/
theorem C2_failing_input :
    add_order oC2 (add_order oC2 emptyBook) =
      ⟨[⟨100, 1000, [⟨0, oC2⟩, ⟨1, oC2⟩]⟩], [], [(1, ⟨true, 100, 1⟩)], 2⟩ ∧
    (add_order oC2neg emptyBook).bids = [⟨-5, 10, [⟨0, oC2neg⟩]⟩] :=
  ⟨by decide, by decide⟩

/- ### Claim C3 -/

/-- C3, as stated, is false on the code: amending the only order of the
100 level to quantity 0 at the same price leaves a reachable book whose
bid ladder still contains the 100 level, with aggregate 0 and a single
order of remaining quantity 0. -/
theorem C3_counterexample :
    Reachable bookTz ∧
    bookTz.bids = [⟨100, 0, [⟨0, ⟨1, true, 100, 0, 0⟩⟩]⟩] :=
  ⟨bookTz_reachable, by decide⟩

/-- C3 (amended): in every reachable state no level with an EMPTY order
queue remains in either ladder (levels are pruned exactly when their
queue empties); but a level whose aggregate is zero can remain, because a
same-price amendment to quantity zero leaves the zero-quantity order in
place. -/
theorem C3_no_empty_queues (b : OrderBook) (hb : Reachable b) :
    (∀ l ∈ b.bids, l.orders ≠ []) ∧ (∀ l ∈ b.asks, l.orders ≠ []) :=
  ⟨(Reachable_Inv b hb).bidsNE, (Reachable_Inv b hb).asksNE⟩

theorem C3_no_empty_queues_witness :
    Reachable bookA ∧
    (∀ l ∈ bookA.bids, l.orders ≠ []) ∧ (∀ l ∈ bookA.asks, l.orders ≠ []) :=
  ⟨bookA_reachable, C3_no_empty_queues bookA bookA_reachable⟩

/- ### Claim C4 -/

/-- C4, as stated, is false on the code: for the live bid id 1 at price
100, amend_order(1, 100, 0) returns true just as cancel_order(1) does,
but the resulting books differ: the amend leaves the zero-quantity order
resting and registered, the cancel removes it. -/
theorem C4_counterexample :
    Reachable bookT ∧
    lookupGet bookT.order_lookup 1 = some ⟨true, 100, 0⟩ ∧
    (amend_order 1 100 0 bookT).fst = true ∧
    (cancel_order 1 bookT).fst = true ∧
    (amend_order 1 100 0 bookT).snd ≠ (cancel_order 1 bookT).snd :=
  ⟨bookT_reachable, by decide, by decide, by decide, by decide⟩

/-- C4 (amended): for every located live order, amend_order with
new_quantity 0 and a new price DIFFERENT from the order's current level
price returns exactly what cancel_order returns, with the identical
resulting book (the re-insertion of the zero-quantity order is dropped by
add_order); cancel_order succeeds there. -/
theorem C4_amend_zero_as_cancel (oid : Nat) (np : Int) (lv : LookupValue)
    (pl : PriceLevelNode) (e : Entry) (b : OrderBook)
    (hlk : lookupGet b.order_lookup oid = some lv)
    (hfl : findLevel (sideOf b lv.is_buy) lv.price = some pl)
    (hfn : findNode lv.node pl.orders = some e) (hp : np ≠ pl.price) :
    amend_order oid np 0 b = cancel_order oid b ∧
    (cancel_order oid b).fst = true := by
  rw [cancel_eq oid lv pl e b hlk hfl hfn,
    amend_price_eq oid np 0 lv pl e b hlk hfl hfn hp]
  constructor
  · simp [add_order]
  · rfl

theorem C4_amend_zero_as_cancel_witness :
    lookupGet bookT.order_lookup 1 = some ⟨true, 100, 0⟩ ∧
    (102 : Int) ≠ 100 ∧
    (amend_order 1 102 0 bookT = cancel_order 1 bookT ∧
      (cancel_order 1 bookT).fst = true) :=
  ⟨by decide, by decide,
    C4_amend_zero_as_cancel 1 102 ⟨true, 100, 0⟩
      ⟨100, 500, [⟨0, ⟨1, true, 100, 500, 0⟩⟩]⟩ ⟨0, ⟨1, true, 100, 500, 0⟩⟩ bookT
      (by decide) (by decide) (by decide) (by decide)⟩

/- ### Claim C5 -/

/-- C5, as stated, is false on the code: amending bid id 1 (price 100,
qty 500) to price 102 does NOT insert it into the ask ladder.  The order
keeps its side (is_buy is copied unchanged); the ask ladder stays empty
and the order rests as a bid at 102. -/
theorem C5_counterexample :
    Reachable bookT ∧
    amend_order 1 102 500 bookT =
      (true, ⟨[⟨102, 500, [⟨1, ⟨1, true, 102, 500, 0⟩⟩]⟩], [],
        [(1, ⟨true, 102, 1⟩)], 2⟩) ∧
    (amend_order 1 102 500 bookT).snd.asks = [] :=
  ⟨bookT_reachable, by decide, by decide⟩

/-- C5 (amended): Scenario D with the side preserved.  Amending bid id 1
(price 100, qty 500) to price 102 removes it from the bid ladder's 100
level (which vanishes) and appends it as the last order of the BID
ladder's 102 level when one exists (book5 holds a resting bid id 7 at
102); the ask ladder is untouched.  When no bid level at 102 exists
(bookT), a new bid level at 102 is created. -/
theorem C5_amend_price_scenario :
    (amend_order 1 102 500 book5).snd.bids =
      [⟨102, 550, [⟨0, o7⟩, ⟨2, ⟨1, true, 102, 500, 0⟩⟩]⟩] ∧
    (amend_order 1 102 500 book5).snd.asks = [] ∧
    findLevel (amend_order 1 102 500 book5).snd.bids 100 = none ∧
    (amend_order 1 102 500 bookT).snd.bids =
      [⟨102, 500, [⟨1, ⟨1, true, 102, 500, 0⟩⟩]⟩] :=
  ⟨by decide, by decide, by decide, by decide⟩

/- ### Claim C6 counterexample -/

/-- C6, as stated, is false on the code in one respect: no new entry
sequence number is assigned on a price amend.  The only entry-time datum
the code stores, timestamp_ns, is copied unchanged (the source comments
"timestamp preserved"): after amending id 1 (timestamp 7) from 100 to
102, the order sits at the back of the 102 level still carrying
timestamp 7, not a fresh value. -/
theorem C6_counterexample :
    Reachable book6 ∧
    findLevel (amend_order 1 102 500 book6).snd.bids 102 =
      some ⟨102, 510, [⟨1, o62⟩, ⟨2, ⟨1, true, 102, 500, 7⟩⟩]⟩ :=
  ⟨book6_reachable, by decide⟩

/- ### Claim C7 -/

theorem setQtyAtNode_map_id (nd q : Nat) (es : List Entry) :
    (setQtyAtNode nd q es).map (fun e => e.ord.order_id) =
      es.map (fun e => e.ord.order_id) := by
  induction es with
  | nil => rfl
  | cons a es ih =>
    by_cases h : a.node = nd
    · simp [setQtyAtNode, h]
    · have hb : (a.node == nd) = false := by simpa using h
      simp [setQtyAtNode, hb, ih]

theorem findNode_append_cons (as bs : List Entry) (e : Entry) (nd : Nat)
    (has : ∀ a ∈ as, (a.node == nd) = false) (he : e.node = nd) :
    findNode nd (as ++ e :: bs) = some e := by
  induction as with
  | nil => simp [findNode, List.find?_cons, he]
  | cons a as ih =>
    have ha : (a.node == nd) = false := has a (by simp)
    simp only [List.cons_append, findNode, List.find?_cons, ha]
    exact ih (fun x hx => has x (by simp [hx]))

theorem adjustBook_side (lv : LookupValue) (pl : PriceLevelNode) (e : Entry)
    (nq : Nat) (b : OrderBook) :
    sideOf (adjustBook lv pl e nq b) lv.is_buy =
      updateLevel lv.price (fun _ => ⟨pl.price,
        if e.ord.quantity < nq then (pl.total_quantity + (nq - e.ord.quantity)) % U64
        else wsub64 pl.total_quantity (e.ord.quantity - nq),
        setQtyAtNode lv.node nq pl.orders⟩) (sideOf b lv.is_buy) := by
  cases hlb : lv.is_buy <;> simp [adjustBook, sideOf, hlb]

/-- C7: for every located live order, amend_order at the order's current
level price with a positive new quantity returns true, keeps the affected
level's FIFO queue in exactly the same order (the sequences of node tags
and of order ids are unchanged — no re-queueing), and rewrites the
order's quantity in place, all other fields untouched. -/
theorem C7_same_price_amend (oid nq : Nat) (lv : LookupValue)
    (pl : PriceLevelNode) (e : Entry) (b : OrderBook)
    (hlk : lookupGet b.order_lookup oid = some lv)
    (hfl : findLevel (sideOf b lv.is_buy) lv.price = some pl)
    (hfn : findNode lv.node pl.orders = some e) (hq : 0 < nq) :
    (amend_order oid pl.price nq b).fst = true ∧
    ∃ pl2, findLevel (sideOf (amend_order oid pl.price nq b).snd lv.is_buy) lv.price
        = some pl2 ∧
      pl2.orders.map (fun x => x.node) = pl.orders.map (fun x => x.node) ∧
      pl2.orders.map (fun x => x.ord.order_id) =
        pl.orders.map (fun x => x.ord.order_id) ∧
      findNode lv.node pl2.orders = some ⟨e.node, { e.ord with quantity := nq }⟩ := by
  by_cases hqe : nq = e.ord.quantity
  · subst hqe
    rw [amend_noop_eq oid lv pl e b hlk hfl hfn]
    refine ⟨rfl, pl, hfl, rfl, rfl, ?_⟩
    rw [hfn]
  · rw [amend_same_eq oid nq lv pl e b hlk hfl hfn hqe]
    obtain ⟨as, bs, hls, hnm, hpp⟩ := findLevel_split _ _ _ hfl
    obtain ⟨es1, es2, hes, hnn, hen⟩ := findNode_split _ _ _ hfn
    refine ⟨rfl, ⟨pl.price,
      if e.ord.quantity < nq then (pl.total_quantity + (nq - e.ord.quantity)) % U64
      else wsub64 pl.total_quantity (e.ord.quantity - nq),
      setQtyAtNode lv.node nq pl.orders⟩, ?_, ?_, ?_, ?_⟩
    · rw [adjustBook_side, hls, updateLevel_append_cons lv.price _ as bs pl hnm hpp]
      exact findLevel_append_cons_self as bs _ lv.price hnm hpp
    · exact setQtyAtNode_map_node lv.node nq pl.orders
    · exact setQtyAtNode_map_id lv.node nq pl.orders
    · simp only
      rw [hes, setQtyAtNode_append_cons lv.node nq es1 es2 e hnn hen]
      exact findNode_append_cons es1 es2 _ lv.node hnn (by simpa using hen)

theorem C7_same_price_amend_witness :
    lookupGet bookA.order_lookup 5 = some ⟨true, 101, 2⟩ ∧
    findLevel (sideOf bookA true) 101 = some ⟨101, 300, [⟨1, oA2⟩, ⟨2, oA5⟩]⟩ ∧
    findNode 2 [⟨1, oA2⟩, ⟨2, oA5⟩] = some ⟨2, oA5⟩ ∧
    (0 : Nat) < 50 ∧
    ((amend_order 5 (101 : Int) 50 bookA).fst = true ∧
      ∃ pl2, findLevel (sideOf (amend_order 5 (101 : Int) 50 bookA).snd true) 101
          = some pl2 ∧
        pl2.orders.map (fun x => x.node) =
          ([⟨1, oA2⟩, ⟨2, oA5⟩] : List Entry).map (fun x => x.node) ∧
        pl2.orders.map (fun x => x.ord.order_id) =
          ([⟨1, oA2⟩, ⟨2, oA5⟩] : List Entry).map (fun x => x.ord.order_id) ∧
        findNode 2 pl2.orders = some ⟨2, ⟨5, true, 101, 50, 2⟩⟩) :=
  ⟨by decide, by decide, by decide, by decide,
    C7_same_price_amend 5 50 ⟨true, 101, 2⟩ ⟨101, 300, [⟨1, oA2⟩, ⟨2, oA5⟩]⟩
      ⟨2, oA5⟩ bookA (by decide) (by decide) (by decide) (by decide)⟩

/- ### Remaining helpers for the amend/cancel claims -/

theorem eraseBook_lookup (oid : Nat) (lv : LookupValue) (pl : PriceLevelNode)
    (e : Entry) (b : OrderBook) :
    (eraseBook oid lv pl e b).order_lookup = lookupErase b.order_lookup oid := by
  cases hlb : lv.is_buy <;> simp [eraseBook, hlb]

theorem eraseBook_next (oid : Nat) (lv : LookupValue) (pl : PriceLevelNode)
    (e : Entry) (b : OrderBook) :
    (eraseBook oid lv pl e b).next_node = b.next_node := by
  cases hlb : lv.is_buy <;> simp [eraseBook, hlb]

theorem eraseBook_side (oid : Nat) (lv : LookupValue) (pl : PriceLevelNode)
    (e : Entry) (b : OrderBook) :
    sideOf (eraseBook oid lv pl e b) lv.is_buy =
      ladderAfterErase lv.price lv.node e.ord.quantity pl (sideOf b lv.is_buy) := by
  cases hlb : lv.is_buy <;> simp [eraseBook, sideOf, hlb]

theorem add_order_next_side (o : Order) (b : OrderBook) (hq : o.quantity ≠ 0) :
    sideOf (add_order o b) o.is_buy =
      ladderAdd (if o.is_buy then bidBefore else askBefore) b.next_node o
        (sideOf b o.is_buy) := by
  cases hb : o.is_buy <;> simp [add_order, sideOf, hq, hb]

/- ### Claim C6 (amended) -/

/-- C6 (amended): amending a located live order to a different price
returns true, keeps the order's timestamp unchanged (no new entry
sequence number exists or is assigned — the source preserves
timestamp_ns), appends the order as the LAST entry of its side's level at
the new price (so it loses time priority even if it was first in its old
level), and leaves no trace of the order's list node at its old price
level (pruned or shrunk). -/
theorem C6_price_amend_requeues (oid : Nat) (np : Int) (nq : Nat) (lv : LookupValue)
    (pl : PriceLevelNode) (e : Entry) (b : OrderBook) (hb : Reachable b)
    (hlk : lookupGet b.order_lookup oid = some lv)
    (hfl : findLevel (sideOf b lv.is_buy) lv.price = some pl)
    (hfn : findNode lv.node pl.orders = some e)
    (hp : np ≠ pl.price) (hq : nq ≠ 0) :
    (amend_order oid np nq b).fst = true ∧
    ({ e.ord with price := np, quantity := nq } : Order).timestamp_ns =
      e.ord.timestamp_ns ∧
    (∃ pl2, findLevel (sideOf (amend_order oid np nq b).snd lv.is_buy) np = some pl2 ∧
      pl2.orders.getLast? = some ⟨b.next_node,
        { e.ord with price := np, quantity := nq }⟩) ∧
    (∀ pl3 ∈ sideOf (amend_order oid np nq b).snd lv.is_buy, pl3.price = lv.price →
      ∀ e2 ∈ pl3.orders, e2.node ≠ lv.node) := by
  have hi := Reachable_Inv b hb
  obtain ⟨as, bs, hls, hnm, hpp⟩ := findLevel_split _ _ _ hfl
  obtain ⟨es1, es2, hes, hnn, hen⟩ := findNode_split _ _ _ hfn
  have hbuy : e.ord.is_buy = lv.is_buy := by
    have hplm : pl ∈ sideOf b lv.is_buy := by rw [hls]; simp
    have hem : e ∈ pl.orders := by rw [hes]; simp
    cases hlb : lv.is_buy
    · exact hi.asksSide pl (by rw [hlb] at hplm; simpa [sideOf] using hplm) e hem
    · exact hi.bidsSide pl (by rw [hlb] at hplm; simpa [sideOf] using hplm) e hem
  have hc := amend_price_eq oid np nq lv pl e b hlk hfl hfn hp
  have hcsnd : (amend_order oid np nq b).snd =
      add_order { e.ord with price := np, quantity := nq }
        (eraseBook oid lv pl e b) := by
    rw [hc]
  have hub : ({ e.ord with price := np, quantity := nq } : Order).is_buy = lv.is_buy :=
    hbuy
  have hside : sideOf (amend_order oid np nq b).snd lv.is_buy =
      ladderAdd (if lv.is_buy then bidBefore else askBefore) b.next_node
        { e.ord with price := np, quantity := nq }
        (sideOf (eraseBook oid lv pl e b) lv.is_buy) := by
    rw [hcsnd]
    have h1 := add_order_next_side { e.ord with price := np, quantity := nq }
      (eraseBook oid lv pl e b) (by simpa using hq)
    rw [hub] at h1
    rw [h1, eraseBook_next]
  refine ⟨by rw [hc], rfl, ?_, ?_⟩
  · obtain ⟨l2, hfind, hprice, hlast⟩ := findLevel_ladderAdd_self
      (if lv.is_buy then bidBefore else askBefore) b.next_node
      { e.ord with price := np, quantity := nq }
      (sideOf (eraseBook oid lv pl e b) lv.is_buy)
    exact ⟨l2, by rw [hside]; exact hfind, hlast⟩
  · intro pl3 hpl3 hp3 e2 he2
    rw [hside] at hpl3
    rcases mem_ladderAdd _ _ _ _ _ hpl3 with h | ⟨l4, hl4, hp4, he4⟩ | h
    · rw [eraseBook_side] at h
      exact node_gone_after_erase lv.price lv.node e.ord.quantity pl
        (sideOf b lv.is_buy) as bs es1 es2 e hls hnm hpp hes hnn hen
        (sideNodes_nodup b hi lv.is_buy) pl3 h e2 he2
    · exfalso
      have hcon : pl3.price = np := by
        rw [he4]
        simpa using hp4
      rw [hp3] at hcon
      rw [hpp] at hp
      exact hp hcon.symm
    · exfalso
      have hcon : pl3.price = np := by
        rw [h]
      rw [hp3] at hcon
      rw [hpp] at hp
      exact hp hcon.symm

theorem C6_price_amend_requeues_witness :
    Reachable book6 ∧
    lookupGet book6.order_lookup 1 = some ⟨true, 100, 0⟩ ∧
    (102 : Int) ≠ (100 : Int) ∧ (500 : Nat) ≠ 0 ∧
    ((amend_order 1 102 500 book6).fst = true ∧
      (⟨1, true, 102, 500, 7⟩ : Order).timestamp_ns = (7 : Nat) ∧
      (∃ pl2, findLevel (sideOf (amend_order 1 102 500 book6).snd true) 102
          = some pl2 ∧
        pl2.orders.getLast? = some ⟨2, ⟨1, true, 102, 500, 7⟩⟩) ∧
      (∀ pl3 ∈ sideOf (amend_order 1 102 500 book6).snd true,
        pl3.price = (100 : Int) → ∀ e2 ∈ pl3.orders, e2.node ≠ 0)) :=
  ⟨book6_reachable, by decide, by decide, by decide,
    C6_price_amend_requeues 1 102 500 ⟨true, 100, 0⟩ ⟨100, 500, [⟨0, o61⟩]⟩
      ⟨0, o61⟩ book6 book6_reachable (by decide) (by decide) (by decide)
      (by decide) (by decide)⟩

/- ### Claim C8 -/

/-- C8: get_snapshot is a pure read (the source method is const; the
embedding returns only the two level vectors and no book), it returns at
most depth levels per side, the returned bid prices are non-increasing
and the returned ask prices non-decreasing, and with depth 0 both
returned sequences are empty regardless of book contents. -/
theorem C8_snapshot (b : OrderBook) (depth : Nat) (hb : Reachable b) :
    (get_snapshot depth b).fst.length ≤ depth ∧
    (get_snapshot depth b).snd.length ≤ depth ∧
    ((get_snapshot depth b).fst.map (fun l => l.price)).Pairwise
      (fun x y => y ≤ x) ∧
    ((get_snapshot depth b).snd.map (fun l => l.price)).Pairwise
      (fun x y => x ≤ y) ∧
    get_snapshot 0 b = ([], []) := by
  have hi := Reachable_Inv b hb
  refine ⟨?_, ?_, ?_, ?_, rfl⟩
  · simp [get_snapshot]
  · simp [get_snapshot]
  · have h1 : (b.bids.take depth).Pairwise
        (fun x y => bidBefore x.price y.price = true) :=
      hi.bidsSorted.sublist (List.take_sublist depth b.bids)
    rw [get_snapshot]
    simp only [List.map_map]
    refine List.pairwise_map.mpr ?_
    exact h1.imp (fun h => le_of_lt (by simpa [bidBefore] using h))
  · have h1 : (b.asks.take depth).Pairwise
        (fun x y => askBefore x.price y.price = true) :=
      hi.asksSorted.sublist (List.take_sublist depth b.asks)
    rw [get_snapshot]
    simp only [List.map_map]
    refine List.pairwise_map.mpr ?_
    exact h1.imp (fun h => le_of_lt (by simpa [askBefore] using h))

theorem C8_snapshot_witness :
    Reachable bookA ∧
    ((get_snapshot 2 bookA).fst.length ≤ 2 ∧
      (get_snapshot 2 bookA).snd.length ≤ 2 ∧
      ((get_snapshot 2 bookA).fst.map (fun l => l.price)).Pairwise
        (fun x y => y ≤ x) ∧
      ((get_snapshot 2 bookA).snd.map (fun l => l.price)).Pairwise
        (fun x y => x ≤ y) ∧
      get_snapshot 0 bookA = ([], [])) ∧
    get_snapshot 2 bookA = ([⟨101, 300⟩, ⟨100, 500⟩], []) :=
  ⟨bookA_reachable, C8_snapshot bookA 2 bookA_reachable, by decide⟩

/- ### Claim C9 -/

/-- C9: in every reachable book, cancel_order of an unknown (or already
removed) id returns false and leaves the book bit-for-bit unchanged;
cancel_order of a live id returns true, unregisters the id, removes the
order's list node from its side's ladder, and a second cancel of the same
id then returns false leaving the new state unchanged. -/
theorem C9_cancel (b : OrderBook) (oid : Nat) (hb : Reachable b) :
    (lookupGet b.order_lookup oid = none → cancel_order oid b = (false, b)) ∧
    (∀ lv, lookupGet b.order_lookup oid = some lv →
      (cancel_order oid b).fst = true ∧
      lookupGet (cancel_order oid b).snd.order_lookup oid = none ∧
      (∀ pl3 ∈ sideOf (cancel_order oid b).snd lv.is_buy, ∀ e2 ∈ pl3.orders,
        e2.node ≠ lv.node) ∧
      cancel_order oid (cancel_order oid b).snd =
        (false, (cancel_order oid b).snd)) := by
  have hi := Reachable_Inv b hb
  refine ⟨cancel_none_eq oid b, ?_⟩
  intro lv hlk
  obtain ⟨pl, e, hfl, hfn, hn, hid, hm⟩ := located_of_lookup b oid lv hi hlk
  have hc := cancel_eq oid lv pl e b hlk hfl hfn
  have hcfst : (cancel_order oid b).fst = true := by rw [hc]
  have hcsnd : (cancel_order oid b).snd = eraseBook oid lv pl e b := by rw [hc]
  obtain ⟨as, bs, hls, hnm, hpp⟩ := findLevel_split _ _ _ hfl
  obtain ⟨es1, es2, hes, hnn, hen⟩ := findNode_split _ _ _ hfn
  have herased : lookupGet (cancel_order oid b).snd.order_lookup oid = none := by
    rw [hcsnd, eraseBook_lookup]
    exact lookupGet_erase_self _ _
  refine ⟨hcfst, herased, ?_, ?_⟩
  · intro pl3 hpl3 e2 he2
    rw [hcsnd, eraseBook_side] at hpl3
    exact node_gone_after_erase lv.price lv.node e.ord.quantity pl
      (sideOf b lv.is_buy) as bs es1 es2 e hls hnm hpp hes hnn hen
      (sideNodes_nodup b hi lv.is_buy) pl3 hpl3 e2 he2
  · exact cancel_none_eq oid (cancel_order oid b).snd herased

theorem C9_cancel_witness :
    Reachable bookA ∧
    lookupGet bookA.order_lookup 2 = some ⟨true, 101, 1⟩ ∧
    (cancel_order 2 bookA).fst = true ∧
    lookupGet (cancel_order 2 bookA).snd.order_lookup 2 = none ∧
    cancel_order 2 (cancel_order 2 bookA).snd =
      (false, (cancel_order 2 bookA).snd) ∧
    (cancel_order 2 bookA).snd.bids =
      [⟨101, 100, [⟨2, oA5⟩]⟩, ⟨100, 500, [⟨0, oA1⟩]⟩] := by
  have h := (C9_cancel bookA 2 bookA_reachable).2 ⟨true, 101, 1⟩ (by decide)
  exact ⟨bookA_reachable, by decide, h.1, h.2.1, h.2.2.2, by decide⟩

/- ### Claim C10 -/

/-- C10: both cancel_order and a price-changing amend_order remove the
located order through the same guarded subtraction: the level aggregate
becomes clampSub total qty, which equals total - qty when qty ≤ total and
saturates at 0 otherwise, and never exceeds the previous aggregate — the
unsigned counter cannot wrap. -/
theorem C10_clamped_subtraction (oid : Nat) (np : Int) (nq : Nat) (lv : LookupValue)
    (pl : PriceLevelNode) (e : Entry) (b : OrderBook)
    (hlk : lookupGet b.order_lookup oid = some lv)
    (hfl : findLevel (sideOf b lv.is_buy) lv.price = some pl)
    (hfn : findNode lv.node pl.orders = some e) (hp : np ≠ pl.price) :
    cancel_order oid b = (true, eraseBook oid lv pl e b) ∧
    amend_order oid np nq b = (true, add_order
      { e.ord with price := np, quantity := nq } (eraseBook oid lv pl e b)) ∧
    (∀ pl2 ∈ sideOf (eraseBook oid lv pl e b) lv.is_buy,
      pl2 ∈ sideOf b lv.is_buy ∨
      (pl2.price = pl.price ∧
        pl2.total_quantity = clampSub pl.total_quantity e.ord.quantity ∧
        pl2.total_quantity ≤ pl.total_quantity)) ∧
    (∀ t q : Nat, clampSub t q ≤ t) ∧
    (∀ t q : Nat, q ≤ t → clampSub t q = t - q) ∧
    (∀ t q : Nat, t < q → clampSub t q = 0) := by
  obtain ⟨as, bs, hls, hnm, hpp⟩ := findLevel_split _ _ _ hfl
  obtain ⟨es1, es2, hes, hnn, hen⟩ := findNode_split _ _ _ hfn
  refine ⟨cancel_eq oid lv pl e b hlk hfl hfn,
    amend_price_eq oid np nq lv pl e b hlk hfl hfn hp, ?_, ?_, ?_, ?_⟩
  · intro pl2 hpl2
    rw [eraseBook_side] at hpl2
    rcases ladderAfterErase_mem lv.price lv.node e.ord.quantity pl
      (sideOf b lv.is_buy) as bs es1 es2 e hls hnm hpp hes hnn hen pl2 hpl2 with
        h | ⟨h, hne⟩
    · exact Or.inl h
    · refine Or.inr ⟨by rw [h], by rw [h], ?_⟩
      rw [h]
      simp only [clampSub]
      split
      · omega
      · omega
  · intro t q
    simp only [clampSub]
    split
    · omega
    · omega
  · intro t q h
    simp only [clampSub]
    rw [if_pos h]
  · intro t q h
    simp only [clampSub]
    rw [if_neg (by omega)]

theorem C10_clamped_subtraction_witness :
    lookupGet bookOv.order_lookup 1 = some ⟨true, 100, 0⟩ ∧
    (50 : Int) ≠ (100 : Int) ∧
    (cancel_order 1 bookOv).fst = true ∧
    (cancel_order 1 bookOv).snd.bids = [⟨100, 0, [⟨1, oOv2⟩]⟩] ∧
    clampSub 0 (2 ^ 63) = 0 ∧ wsub64 0 (2 ^ 63) = 2 ^ 63 := by
  have h := C10_clamped_subtraction 1 50 1 ⟨true, 100, 0⟩
    ⟨100, 0, [⟨0, oOv1⟩, ⟨1, oOv2⟩]⟩ ⟨0, oOv1⟩ bookOv (by decide) (by decide)
    (by decide) (by decide)
  exact ⟨by decide, by decide, by rw [h.1], by decide, by decide, by decide⟩

end OrderBookSpec
